import Mathlib

/-
Echo Studio audio engine (src/main.js): verification development.

Embedding conventions
* In `processAudio` a JavaScript number is a `JSNum`: a finite value (a rational), `+Infinity`,
  `-Infinity` or `NaN`. Every arithmetic operation rounds its exact result to the nearest
  IEEE 754 double (ties to even, gradual underflow, overflow to an infinity), and every store
  into a `Float32Array` rounds to the nearest float32 in the same way. The two zeros are not
  distinguished.
* In `drawWaveform` and `bufferToWave` the samples read from the typed array are finite values,
  modelled as rationals; the operations applied to them there (comparisons, the products
  `s * 0x7FFF` and `s * 0x8000`, truncation) are taken without rounding error.
* A typed array is a list; reading an index outside it yields `undefined`, which is `NaN` in
  arithmetic and makes every comparison false.
* An `ArrayBuffer` seen through a `DataView` is a `List Nat` of bytes; a `DataView` setter
  that would raise `RangeError` returns `none`.
* Sample counts, sample delays and pixel widths are natural numbers.
-/

namespace EchoStudio

/-! ## JavaScript numbers -/

/-- A JavaScript number: a finite value, an infinity, or NaN. -/
inductive JSNum where
  | fin (q : ℚ)
  | posInf
  | negInf
  | nan
  deriving DecidableEq

/-- Nearest integer, ties to the even one. -/
def roundHalfEven (t : ℚ) : Int :=
  let f := ⌊t⌋
  let r := t - f
  if r < 1 / 2 then f else if 1 / 2 < r then f + 1 else if f % 2 = 0 then f else f + 1

/-- Round-to-nearest, ties-to-even, into the binary format with `p` significand bits and
exponent range `[emin, emax]`: the grid spacing is `2 ^ (e - (p - 1))` with `e` the binade of
`q`, not below `emin` (gradual underflow); a result of magnitude `2 ^ (emax + 1)` or more
overflows to an infinity. -/
def roundBinary (p : Nat) (emin emax : Int) (q : ℚ) : JSNum :=
  let e := max (Int.log 2 |q|) emin
  let ulp : ℚ := 2 ^ (e - ((p : Int) - 1))
  let r : ℚ := (roundHalfEven (q / ulp) : ℚ) * ulp
  if (2 : ℚ) ^ (emax + 1) ≤ |r| then (if 0 < r then .posInf else .negInf) else .fin r

/-- Rounding to IEEE 754 binary64, the format of every JavaScript number. -/
def roundDouble (q : ℚ) : JSNum := roundBinary 53 (-1022) 1023 q

/-- Rounding to IEEE 754 binary32, the element format of a `Float32Array`. -/
def roundFloat32 (q : ℚ) : JSNum := roundBinary 24 (-126) 127 q

/-- The value of a decimal literal of the source text, such as `0.95`. -/
def jsLiteral (q : ℚ) : JSNum := roundDouble q

/-- The value held by a `Float32Array` element after storing a number (`Math.fround`). -/
def JSNum.fround : JSNum → JSNum
  | .fin q => roundFloat32 q
  | v => v

/-- The infinity of the given sign. -/
def JSNum.signedInf (positive : Bool) : JSNum := if positive then .posInf else .negInf

/-- The JavaScript operator `+` on numbers. -/
def JSNum.add : JSNum → JSNum → JSNum
  | .nan, _ => .nan
  | _, .nan => .nan
  | .posInf, .negInf => .nan
  | .negInf, .posInf => .nan
  | .posInf, _ => .posInf
  | _, .posInf => .posInf
  | .negInf, _ => .negInf
  | _, .negInf => .negInf
  | .fin a, .fin b => roundDouble (a + b)

/-- The JavaScript operator `*` on numbers. -/
def JSNum.mul : JSNum → JSNum → JSNum
  | .nan, _ => .nan
  | _, .nan => .nan
  | .fin a, .fin b => roundDouble (a * b)
  | .fin a, .posInf => if a = 0 then .nan else JSNum.signedInf (decide (0 < a))
  | .fin a, .negInf => if a = 0 then .nan else JSNum.signedInf (decide (a < 0))
  | .posInf, .fin b => if b = 0 then .nan else JSNum.signedInf (decide (0 < b))
  | .negInf, .fin b => if b = 0 then .nan else JSNum.signedInf (decide (b < 0))
  | .posInf, .posInf => .posInf
  | .posInf, .negInf => .negInf
  | .negInf, .posInf => .negInf
  | .negInf, .negInf => .posInf

/-- The JavaScript operator `/` on numbers (a zero divisor is taken as `+0`). -/
def JSNum.div : JSNum → JSNum → JSNum
  | .nan, _ => .nan
  | _, .nan => .nan
  | .fin a, .fin b =>
    if b = 0 then (if a = 0 then .nan else JSNum.signedInf (decide (0 < a)))
    else roundDouble (a / b)
  | .fin _, .posInf => .fin 0
  | .fin _, .negInf => .fin 0
  | .posInf, .fin b => JSNum.signedInf (decide (0 ≤ b))
  | .negInf, .fin b => JSNum.signedInf (decide (b < 0))
  | _, _ => .nan

/-- `Math.abs`. -/
def JSNum.abs : JSNum → JSNum
  | .fin a => .fin |a|
  | .posInf => .posInf
  | .negInf => .posInf
  | .nan => .nan

/-- The JavaScript comparison `a > b`; false as soon as one side is NaN. -/
def JSNum.gt : JSNum → JSNum → Bool
  | .nan, _ => false
  | _, .nan => false
  | .fin a, .fin b => decide (b < a)
  | .posInf, .posInf => false
  | .posInf, _ => true
  | .negInf, _ => false
  | .fin _, .posInf => false
  | .fin _, .negInf => true

/-- The real value of a finite number (`0` for an infinity or NaN). -/
def JSNum.toRat : JSNum → ℚ
  | .fin q => q
  | _ => 0

/-- A finite value that a `Float32Array` can hold. -/
def JSNum.FiniteFloat32 (v : JSNum) : Prop := ∃ q : ℚ, v = .fin q ∧ roundFloat32 q = .fin q

/-- A value that is NaN or finite with magnitude at most `b`. -/
def JSNum.Within (b : ℚ) (v : JSNum) : Prop := v = .nan ∨ ∃ a : ℚ, v = .fin a ∧ |a| ≤ b

/-- A value that a peak scan can hold: `+Infinity` or a non-negative finite number. -/
def JSNum.PeakShape (M : JSNum) : Prop := M = .posInf ∨ ∃ m : ℚ, M = .fin m ∧ 0 ≤ m

/-- The contents of a `Float32Array` filled from decimal literals. -/
def float32Array (values : List ℚ) : List JSNum :=
  values.map (fun q => (jsLiteral q).fround)

/-! ## processAudio (main.js lines 150-203) -/

/-- Body of the echo loop of `processAudio` (lines 174-179): one iteration at index `n`,
acting on the `Float32Array` `y`. -/
def echoStep (x : List JSNum) (alpha : JSNum) (nd : Nat) (y : List JSNum) (n : Nat) :
    List JSNum :=
  let N := x.length
  let x_val : JSNum := if n < N then x.getD n .nan else .fin 0
  if n < nd then y.set n x_val.fround
  else y.set n (x_val.add (alpha.mul (y.getD (n - nd) .nan))).fround

/-- Output array after the first `k` iterations of the echo loop, started from the
zero-filled `new Float32Array(totalSamples)` (line 167). -/
def echoRun (x : List JSNum) (alpha : JSNum) (nd totalSamples k : Nat) : List JSNum :=
  (List.range k).foldl (echoStep x alpha nd) (List.replicate totalSamples (.fin 0))

/-- Echo loop of `processAudio` (lines 162-180):
`for (let n = 0; n < totalSamples; n++) { ... }` on a zero-filled array. -/
def echoLoop (x : List JSNum) (alpha : JSNum) (nd tailSamples : Nat) : List JSNum :=
  let N := x.length
  let totalSamples := N + tailSamples
  (List.range totalSamples).foldl (echoStep x alpha nd) (List.replicate totalSamples (.fin 0))

/-- Peak scan of `processAudio` (lines 183-184):
`if (Math.abs(y[i]) > maxVal) maxVal = Math.abs(y[i])`, started at `0`. -/
def maxAbs (y : List JSNum) : JSNum :=
  y.foldl (fun maxVal v => if v.abs.gt maxVal then v.abs else maxVal) (.fin 0)

/-- Normalisation step of `processAudio` (lines 183-187): when the peak exceeds `1.0` every
element is overwritten with `(y[i] / maxVal) * 0.95`. -/
def normalize (y : List JSNum) : List JSNum :=
  let maxVal := maxAbs y
  if maxVal.gt (jsLiteral 1.0) then
    y.map (fun v => ((v.div maxVal).mul (jsLiteral 0.95)).fround)
  else y

/-- Numeric core of `processAudio`: echo loop followed by normalisation. -/
def processAudio (x : List JSNum) (alpha : JSNum) (nd tailSamples : Nat) : List JSNum :=
  normalize (echoLoop x alpha nd tailSamples)

/-! ## drawWaveform (main.js lines 205-239) -/

/-- Value of `Math.ceil(data.length / width)` (line 224). -/
def waveformStep (length width : Nat) : Nat :=
  ⌈(length : ℚ) / (width : ℚ)⌉.toNat

/-- Body of the inner loop of `drawWaveform` (lines 231-233) at window start `base` and inner
index `j`, acting on the pair `(min, max)`. An index past the end reads `undefined`, for which
both comparisons are false. -/
def waveformScan (data : List ℚ) (base : Nat) (mm : ℚ × ℚ) (j : Nat) : ℚ × ℚ :=
  match data[base + j]? with
  | some datum =>
    (if datum < mm.1 then datum else mm.1, if datum > mm.2 then datum else mm.2)
  | none => mm

/-- The `(min, max)` pair of column `i` (lines 228-234). -/
def waveformColumn (data : List ℚ) (step i : Nat) : ℚ × ℚ :=
  (List.range step).foldl (waveformScan data (i * step)) (1.0, -1.0)

/-- Reduction loop of `drawWaveform` (lines 224-237): the `(min, max)` pair drawn for each
column `i < width`. For `width = 0` the loop body never runs. -/
def drawWaveform (data : List ℚ) (width : Nat) : List (ℚ × ℚ) :=
  let step := waveformStep data.length width
  (List.range width).map (fun i => waveformColumn data step i)

/-! ## bufferToWave (main.js lines 280-312) -/

/-- A mono `AudioBuffer`: its sample rate and the samples of channel 0. -/
structure AudioBuffer where
  sampleRate : Int
  channelData : List ℚ

/-- The `length` property of an `AudioBuffer`. -/
def AudioBuffer.length (abuffer : AudioBuffer) : Nat := abuffer.channelData.length

/-- Truncation toward zero, the integer conversion applied by the `DataView` setters. -/
def truncate (v : ℚ) : Int := if 0 ≤ v then ⌊v⌋ else ⌈v⌉

/-- ECMAScript `ToInt16`: truncate, reduce modulo `2^16`, read as a signed 16-bit integer. -/
def toInt16 (v : ℚ) : Int :=
  let m := truncate v % 65536
  if m ≥ 32768 then m - 65536 else m

/-- `DataView.prototype.setUint8`. -/
def setUint8 (view : List Nat) (byteOffset : Nat) (value : Int) : Option (List Nat) :=
  if byteOffset + 1 ≤ view.length then
    some (view.set byteOffset (value % 256).toNat)
  else none

/-- `DataView.prototype.setUint16` with `littleEndian = true`. -/
def setUint16 (view : List Nat) (byteOffset : Nat) (value : Int) : Option (List Nat) :=
  if byteOffset + 2 ≤ view.length then
    let u := (value % 65536).toNat
    some ((view.set byteOffset (u % 256)).set (byteOffset + 1) (u / 256))
  else none

/-- `DataView.prototype.setUint32` with `littleEndian = true`. -/
def setUint32 (view : List Nat) (byteOffset : Nat) (value : Int) : Option (List Nat) :=
  if byteOffset + 4 ≤ view.length then
    let u := (value % 4294967296).toNat
    some ((((view.set byteOffset (u % 256)).set (byteOffset + 1) (u / 256 % 256)).set
      (byteOffset + 2) (u / 65536 % 256)).set (byteOffset + 3) (u / 16777216))
  else none

/-- `DataView.prototype.setInt16` with `littleEndian = true`. -/
def setInt16 (view : List Nat) (byteOffset : Nat) (value : ℚ) : Option (List Nat) :=
  if byteOffset + 2 ≤ view.length then
    let u := (toInt16 value % 65536).toNat
    some ((view.set byteOffset (u % 256)).set (byteOffset + 1) (u / 256))
  else none

/-- The closure `writeString` (lines 287-290): returns the new bytes and the new `offset`. -/
def writeString (view : List Nat) (offset : Nat) (s : String) : Option (List Nat × Nat) :=
  match (List.range s.length).foldlM
      (fun v i => setUint8 v (offset + i) ((s.toList.getD i default).toNat : Int)) view with
  | none => none
  | some view => some (view, offset + s.length)

/-- Argument passed to `setInt16` for sample `c` (lines 307-308):
`s = Math.max(-1, Math.min(1, c))`, then `s < 0 ? s * 0x8000 : s * 0x7FFF`. -/
def encodeSample (c : ℚ) : ℚ :=
  let s := max (-1) (min 1 c)
  if s < 0 then s * 0x8000 else s * 0x7FFF

/-- Sample loop of `bufferToWave` (lines 306-309); `offset` advances by 2 per sample. -/
def writeSamples (channelData : List ℚ) (view : List Nat) (offset : Nat) :
    Option (List Nat × Nat) :=
  channelData.foldlM
    (fun (st : List Nat × Nat) c =>
      match setInt16 st.1 st.2 (encodeSample c) with
      | none => none
      | some view => some (view, st.2 + 2))
    (view, offset)

/-- The bytes of the `ArrayBuffer` built by `bufferToWave` (lines 280-312), or `none` if a
`DataView` write falls outside the buffer. -/
def bufferToWave (abuffer : AudioBuffer) : Option (List Nat) :=
  let length : Nat := abuffer.length * 1 * 2 + 44
  let view := List.replicate length 0
  let offset : Nat := 0
  match writeString view offset "RIFF" with
  | none => none
  | some (view, offset) =>
  match setUint32 view offset ((length : Int) - 8) with
  | none => none
  | some view =>
  let offset := offset + 4
  match writeString view offset "WAVE" with
  | none => none
  | some (view, offset) =>
  match writeString view offset "fmt " with
  | none => none
  | some (view, offset) =>
  match setUint32 view offset 16 with
  | none => none
  | some view =>
  let offset := offset + 4
  match setUint16 view offset 1 with
  | none => none
  | some view =>
  let offset := offset + 2
  match setUint16 view offset 1 with
  | none => none
  | some view =>
  let offset := offset + 2
  match setUint32 view offset abuffer.sampleRate with
  | none => none
  | some view =>
  let offset := offset + 4
  match setUint32 view offset (abuffer.sampleRate * 2) with
  | none => none
  | some view =>
  let offset := offset + 4
  match setUint16 view offset 2 with
  | none => none
  | some view =>
  let offset := offset + 2
  match setUint16 view offset 16 with
  | none => none
  | some view =>
  let offset := offset + 2
  match writeString view offset "data" with
  | none => none
  | some (view, offset) =>
  match setUint32 view offset ((length : Int) - (offset : Int) - 4) with
  | none => none
  | some view =>
  let offset := offset + 4
  match writeSamples abuffer.channelData view offset with
  | none => none
  | some (view, _) => some view

/-! ## The canonical PCM container, as the specification words it -/

/-- Character codes of an ASCII tag such as "RIFF". -/
def asciiBytes (s : String) : List Nat := s.toList.map Char.toNat

/-- Little-endian bytes of an unsigned 16-bit value. -/
def le16 (v : Nat) : List Nat := [v % 256, v / 256]

/-- Little-endian bytes of an unsigned 32-bit value. -/
def le32 (v : Nat) : List Nat := [v % 256, v / 256 % 256, v / 65536 % 256, v / 16777216]

/-- Two's-complement 16-bit pattern of a signed integer in `[-32768, 32767]`. -/
def twosComplement16 (v : Int) : Nat := if v < 0 then (v + 65536).toNat else v.toNat

/-- Quantised sample of the specification: clamp to `[-1, 1]`, scale negative values by 32768
and the others by 32767, truncate. -/
def pcmQuantize (sample : ℚ) : Int :=
  let c := max (-1) (min 1 sample)
  if c < 0 then truncate (c * 32768) else truncate (c * 32767)

/-- The 44-byte header of the container for sample rate `fs` and `N` samples. -/
def waveHeader (fs : Int) (N : Nat) : List Nat :=
  asciiBytes "RIFF" ++ le32 (36 + 2 * N) ++ asciiBytes "WAVE" ++ asciiBytes "fmt " ++
  le32 16 ++ le16 1 ++ le16 1 ++ le32 fs.toNat ++ le32 (2 * fs).toNat ++ le16 2 ++ le16 16 ++
  asciiBytes "data" ++ le32 (2 * N)

/-- The data chunk: two bytes per sample. -/
def waveData (samples : List ℚ) : List Nat :=
  samples.flatMap (fun s => le16 (twosComplement16 (pcmQuantize s)))

/-- The `len` bytes of `bytes` starting at `offset`. -/
def slice (bytes : List Nat) (offset len : Nat) : List Nat := (bytes.drop offset).take len

/-! ## Rounding, echo loop and normalisation: supporting lemmas -/

theorem roundHalfEven_intCast (n : Int) : roundHalfEven (n : ℚ) = n := by
  unfold roundHalfEven
  simp

theorem roundHalfEven_eq_of_abs_lt (t : ℚ) (m : Int) (h : |t - m| < 1 / 2) :
    roundHalfEven t = m := by
  rw [abs_lt] at h
  obtain ⟨h1, h2⟩ := h
  have hf1 := Int.floor_le t
  have hf2 := Int.lt_floor_add_one t
  unfold roundHalfEven
  simp only
  by_cases hfm : ⌊t⌋ = m
  · rw [hfm] at hf1 hf2 ⊢
    rw [if_pos (by linarith)]
  · have hlo : m - 1 ≤ ⌊t⌋ := by
      apply Int.le_floor.mpr
      push_cast; linarith
    have hhi : ⌊t⌋ ≤ m := by
      have : ⌊t⌋ < m + 1 := by
        apply Int.floor_lt.mpr
        push_cast; linarith
      omega
    have hfe : ⌊t⌋ = m - 1 := by omega
    have hfq : ((⌊t⌋ : ℤ) : ℚ) = (m : ℚ) - 1 := by rw [hfe]; push_cast; ring
    rw [hfq]
    rw [if_neg (by linarith), if_pos (by linarith), hfe]
    ring

theorem roundHalfEven_le (t : ℚ) (n : Int) (h : t ≤ n) : roundHalfEven t ≤ n := by
  have hf1 := Int.floor_le t
  have hfn : ⌊t⌋ ≤ n := Int.cast_le.mp (le_trans hf1 h)
  unfold roundHalfEven
  simp only
  by_cases hlt : ⌊t⌋ < n
  · split
    · exact hfn
    · split
      · omega
      · split <;> omega
  · have hfe : ⌊t⌋ = n := by omega
    have hfq : ((⌊t⌋ : ℤ) : ℚ) = (n : ℚ) := by rw [hfe]
    rw [if_pos (by rw [hfq]; linarith)]
    exact hfn

theorem le_roundHalfEven (t : ℚ) (n : Int) (h : (n : ℚ) ≤ t) : n ≤ roundHalfEven t := by
  have hfn : n ≤ ⌊t⌋ := Int.le_floor.mpr h
  unfold roundHalfEven
  simp only
  split
  · exact hfn
  · split
    · omega
    · split <;> omega

theorem log_two_eq (q : ℚ) (e : Int) (h1 : (2 : ℚ) ^ e ≤ |q|) (h2 : |q| < (2 : ℚ) ^ (e + 1)) :
    Int.log 2 |q| = e := by
  have hpos : (0 : ℚ) < |q| := lt_of_lt_of_le (by positivity) h1
  apply le_antisymm
  · have : Int.log 2 |q| < e + 1 :=
      (Int.lt_zpow_iff_log_lt (by norm_num : 1 < 2) hpos).mp (by exact_mod_cast h2)
    omega
  · exact (Int.zpow_le_iff_le_log (by norm_num : 1 < 2) hpos).mp (by exact_mod_cast h1)

theorem abs_lt_two_zpow_log (q : ℚ) : |q| < (2 : ℚ) ^ (Int.log 2 |q| + 1) := by
  have := Int.lt_zpow_succ_log_self (by norm_num : 1 < 2) (|q|)
  exact_mod_cast this

/-- Evaluation of `roundBinary` on a value whose binade and rounded significand are known. -/
theorem roundBinary_eval (p : Nat) (emin emax : Int) (q : ℚ) (e m : Int)
    (h1 : (2 : ℚ) ^ e ≤ |q|) (h2 : |q| < (2 : ℚ) ^ (e + 1)) (hemin : emin ≤ e)
    (hm : |q / (2 : ℚ) ^ (e - ((p : Int) - 1)) - m| < 1 / 2)
    (hfin : |(m : ℚ) * (2 : ℚ) ^ (e - ((p : Int) - 1))| < (2 : ℚ) ^ (emax + 1)) :
    roundBinary p emin emax q = .fin ((m : ℚ) * (2 : ℚ) ^ (e - ((p : Int) - 1))) := by
  unfold roundBinary
  simp only
  rw [log_two_eq q e h1 h2, max_eq_left hemin, roundHalfEven_eq_of_abs_lt _ m hm,
    if_neg (not_le.mpr hfin)]

theorem roundBinary_zero (p : Nat) (emin emax : Int) :
    roundBinary p emin emax 0 = .fin 0 := by
  unfold roundBinary
  simp only [zero_div]
  have h0 : roundHalfEven 0 = 0 := by
    have := roundHalfEven_intCast 0
    simpa using this
  rw [h0]
  simp only [Int.cast_zero, zero_mul, abs_zero]
  rw [if_neg (not_le.mpr (by positivity))]

/-- A value `n * 2^k` with `|n| < 2^p`, `k` not below the least exponent and magnitude in
range is returned unchanged. -/
theorem roundBinary_exact (p : Nat) (emin emax : Int) (n k : Int)
    (hn : |(n : ℚ)| < (2 : ℚ) ^ (p : Int)) (hk : emin - ((p : Int) - 1) ≤ k)
    (hfin : |(n : ℚ) * (2 : ℚ) ^ k| < (2 : ℚ) ^ (emax + 1)) :
    roundBinary p emin emax ((n : ℚ) * (2 : ℚ) ^ k) = .fin ((n : ℚ) * (2 : ℚ) ^ k) := by
  have h2pos : ∀ z : Int, (0 : ℚ) < (2 : ℚ) ^ z := fun z => by positivity
  by_cases hz : (n : ℚ) * (2 : ℚ) ^ k = 0
  · rw [hz]; exact roundBinary_zero p emin emax
  have hpos : (0 : ℚ) < |(n : ℚ) * (2 : ℚ) ^ k| := abs_pos.mpr hz
  have hlog : Int.log 2 |(n : ℚ) * (2 : ℚ) ^ k| - ((p : Int) - 1) ≤ k := by
    have hq : |(n : ℚ) * (2 : ℚ) ^ k| < (2 : ℚ) ^ ((p : Int) + k) := by
      rw [abs_mul, abs_of_pos (h2pos k), zpow_add₀ (by norm_num : (2 : ℚ) ≠ 0)]
      exact mul_lt_mul_of_pos_right hn (h2pos k)
    have : Int.log 2 |(n : ℚ) * (2 : ℚ) ^ k| < (p : Int) + k :=
      (Int.lt_zpow_iff_log_lt (by norm_num : 1 < 2) hpos).mp (by exact_mod_cast hq)
    omega
  unfold roundBinary
  simp only
  generalize he : max (Int.log 2 |(n : ℚ) * (2 : ℚ) ^ k|) emin = e
  have hek : e - ((p : Int) - 1) ≤ k := by
    rw [← he]
    rcases max_cases (Int.log 2 |(n : ℚ) * (2 : ℚ) ^ k|) emin with ⟨h, _⟩ | ⟨h, _⟩ <;>
      rw [h] <;> omega
  obtain ⟨j, hj⟩ : ∃ j : Nat, k = e - ((p : Int) - 1) + j :=
    ⟨(k - (e - ((p : Int) - 1))).toNat, by omega⟩
  have hquot : (n : ℚ) * (2 : ℚ) ^ k / (2 : ℚ) ^ (e - ((p : Int) - 1))
      = ((n * 2 ^ j : Int) : ℚ) := by
    rw [hj, zpow_add₀ (by norm_num : (2 : ℚ) ≠ 0), zpow_natCast]
    push_cast
    field_simp
    ring
  rw [hquot, roundHalfEven_intCast]
  have hr : ((n * 2 ^ j : Int) : ℚ) * (2 : ℚ) ^ (e - ((p : Int) - 1))
      = (n : ℚ) * (2 : ℚ) ^ k := by
    rw [hj, zpow_add₀ (by norm_num : (2 : ℚ) ≠ 0), zpow_natCast]
    push_cast
    ring
  rw [hr, if_neg (not_le.mpr hfin)]

/-- Any input of magnitude at most one rounds to a finite value of magnitude at most one. -/
theorem roundBinary_abs_le_one (p : Nat) (emin emax : Int) (hp : 1 ≤ p) (hemin : emin ≤ 0)
    (hemax : 0 ≤ emax) (q : ℚ) (hq : |q| ≤ 1) :
    ∃ r : ℚ, roundBinary p emin emax q = .fin r ∧ |r| ≤ 1 := by
  have hL : Int.log 2 |q| ≤ 0 := by
    by_cases hz : |q| = 0
    · rw [hz, Int.log_zero_right]
    · have hpos : (0 : ℚ) < |q| := lt_of_le_of_ne (abs_nonneg _) (Ne.symm hz)
      have := Int.log_mono_right (b := 2) hpos hq
      rwa [Int.log_one_right] at this
  unfold roundBinary
  simp only
  generalize he : max (Int.log 2 |q|) emin = e
  have he0 : e ≤ 0 := by rw [← he]; exact max_le hL hemin
  obtain ⟨j, hj⟩ : ∃ j : Nat, e - ((p : Int) - 1) = -(j : Int) :=
    ⟨(((p : Int) - 1) - e).toNat, by omega⟩
  have hulp : (2 : ℚ) ^ (e - ((p : Int) - 1)) = ((2 : ℚ) ^ j)⁻¹ := by
    rw [hj, zpow_neg, zpow_natCast]
  have hNpos : (0 : ℚ) < (2 : ℚ) ^ j := by positivity
  rw [hulp]
  have hquot : q / ((2 : ℚ) ^ j)⁻¹ = q * (2 : ℚ) ^ j := by rw [div_inv_eq_mul]
  rw [hquot]
  have habs := abs_le.mp hq
  have hup : roundHalfEven (q * (2 : ℚ) ^ j) ≤ ((2 ^ j : Nat) : Int) := by
    apply roundHalfEven_le
    push_cast
    nlinarith [habs.2]
  have hlo : -((2 ^ j : Nat) : Int) ≤ roundHalfEven (q * (2 : ℚ) ^ j) := by
    apply le_roundHalfEven
    push_cast
    nlinarith [habs.1]
  have hupq : ((roundHalfEven (q * (2 : ℚ) ^ j) : Int) : ℚ) ≤ (2 : ℚ) ^ j := by
    have : ((roundHalfEven (q * (2 : ℚ) ^ j) : Int) : ℚ) ≤ (((2 ^ j : Nat) : Int) : ℚ) :=
      Int.cast_le.mpr hup
    simpa using this
  have hloq : -((2 : ℚ) ^ j) ≤ ((roundHalfEven (q * (2 : ℚ) ^ j) : Int) : ℚ) := by
    have : ((-((2 ^ j : Nat) : Int) : Int) : ℚ) ≤ ((roundHalfEven (q * (2 : ℚ) ^ j) : Int) : ℚ) :=
      Int.cast_le.mpr hlo
    simpa using this
  have hr : |((roundHalfEven (q * (2 : ℚ) ^ j) : Int) : ℚ) * ((2 : ℚ) ^ j)⁻¹| ≤ 1 := by
    rw [abs_mul, abs_of_pos (inv_pos.mpr hNpos), ← div_eq_mul_inv, div_le_one hNpos]
    exact abs_le.mpr ⟨hloq, hupq⟩
  refine ⟨_, ?_, hr⟩
  rw [if_neg]
  apply not_le.mpr
  refine lt_of_le_of_lt hr ?_
  have : (1 : ℚ) = (2 : ℚ) ^ (0 : Int) := by simp
  rw [this]
  apply zpow_lt_zpow_right₀ (by norm_num) (by omega)

theorem roundDouble_of_float32 (q : ℚ) (h : roundFloat32 q = .fin q) : roundDouble q = .fin q := by
  unfold roundFloat32 roundBinary at h
  simp only at h
  split at h
  · split at h <;> cases h
  · rename_i hno
    have hr := JSNum.fin.inj h
    generalize he : max (Int.log 2 |q|) (-126) = e at hr hno
    have hemin : -126 ≤ e := by rw [← he]; exact le_max_right _ _
    have hlog : Int.log 2 |q| ≤ e := by rw [← he]; exact le_max_left _ _
    generalize hn : roundHalfEven (q / (2 : ℚ) ^ (e - (((24 : Nat) : Int) - 1))) = n at hr hno
    have h2pos : ∀ z : Int, (0 : ℚ) < (2 : ℚ) ^ z := fun z => by positivity
    have hqlt : |q| < (2 : ℚ) ^ (e + 1) :=
      lt_of_lt_of_le (abs_lt_two_zpow_log q)
        (zpow_le_zpow_right₀ (by norm_num) (by omega))
    have hnlt : |(n : ℚ)| < (2 : ℚ) ^ ((53 : Nat) : Int) := by
      have h1 : |(n : ℚ)| * (2 : ℚ) ^ (e - (((24 : Nat) : Int) - 1)) < (2 : ℚ) ^ (e + 1) := by
        rw [← abs_of_pos (h2pos (e - (((24 : Nat) : Int) - 1))), ← abs_mul, hr]
        exact hqlt
      have h2 : (2 : ℚ) ^ (e + 1)
          = (2 : ℚ) ^ (24 : Int) * (2 : ℚ) ^ (e - (((24 : Nat) : Int) - 1)) := by
        rw [← zpow_add₀ (by norm_num : (2 : ℚ) ≠ 0)]
        congr 1
        push_cast
        ring
      rw [h2] at h1
      have h3 := lt_of_mul_lt_mul_right h1 (le_of_lt (h2pos _))
      refine lt_trans h3 ?_
      apply zpow_lt_zpow_right₀ (by norm_num)
      norm_num
    have := roundBinary_exact 53 (-1022) 1023 n (e - (((24 : Nat) : Int) - 1)) hnlt
      (by push_cast; omega)
      (by
        rw [hr]
        refine lt_of_lt_of_le (lt_of_not_le ?_) (zpow_le_zpow_right₀ (by norm_num)
          (by norm_num : (127 : Int) + 1 ≤ 1023 + 1))
        rw [← hr]; exact hno)
    rw [hr] at this
    exact this

theorem fround_zero : (JSNum.fin 0).fround = .fin 0 := roundBinary_zero 24 (-126) 127

theorem roundDouble_zero : roundDouble 0 = .fin 0 := roundBinary_zero 53 (-1022) 1023

theorem add_zero_of_float32 (v : JSNum) (h : v.fround = v) : (v.add (.fin 0)).fround = v := by
  cases v with
  | fin q =>
    have hq : roundFloat32 q = .fin q := h
    show (roundDouble (q + 0)).fround = .fin q
    rw [add_zero, roundDouble_of_float32 q hq]
    exact hq
  | posInf => rfl
  | negInf => rfl
  | nan => rfl

theorem mul_fin_zero (a : ℚ) : (JSNum.fin a).mul (.fin 0) = .fin 0 := by
  show roundDouble (a * 0) = .fin 0
  rw [mul_zero, roundDouble_zero]

theorem echoLoop_eq_echoRun (x : List JSNum) (alpha : JSNum) (nd tail : Nat) :
    echoLoop x alpha nd tail = echoRun x alpha nd (x.length + tail) (x.length + tail) := rfl

theorem echoRun_succ (x : List JSNum) (alpha : JSNum) (nd total k : Nat) :
    echoRun x alpha nd total (k + 1) = echoStep x alpha nd (echoRun x alpha nd total k) k := by
  simp [echoRun, List.range_succ, List.foldl_append]

theorem xval_eq (x : List JSNum) (n : Nat) :
    (if n < x.length then x.getD n .nan else .fin 0) = x.getD n (.fin 0) := by
  split
  · rename_i h
    simp [List.getD_eq_getElem?_getD, List.getElem?_eq_getElem h]
  · rename_i h
    simp [List.getD_eq_getElem?_getD, List.getElem?_eq_none (Nat.le_of_not_lt h)]

theorem echoStep_length (x : List JSNum) (alpha : JSNum) (nd : Nat) (y : List JSNum) (n : Nat) :
    (echoStep x alpha nd y n).length = y.length := by
  unfold echoStep
  split <;> simp

theorem echoRun_length (x : List JSNum) (alpha : JSNum) (nd total k : Nat) :
    (echoRun x alpha nd total k).length = total := by
  induction k with
  | zero => simp [echoRun]
  | succ k ih => rw [echoRun_succ, echoStep_length, ih]

theorem echoStep_getElem?_ne (x : List JSNum) (alpha : JSNum) (nd : Nat) (y : List JSNum)
    (n i : Nat) (h : i ≠ n) : (echoStep x alpha nd y n)[i]? = y[i]? := by
  unfold echoStep
  split <;> simp [List.getElem?_set_ne (Ne.symm h)]

theorem echoStep_getElem?_self (x : List JSNum) (alpha : JSNum) (nd : Nat) (y : List JSNum)
    (n : Nat) (h : n < y.length) :
    (echoStep x alpha nd y n)[n]? = some
      (if n < nd then (x.getD n (.fin 0)).fround
       else ((x.getD n (.fin 0)).add (alpha.mul (y.getD (n - nd) .nan))).fround) := by
  unfold echoStep
  simp only [xval_eq]
  split <;> simp [List.getElem?_set_self, h]

theorem echoRun_untouched (x : List JSNum) (alpha : JSNum) (nd total k i : Nat) (h : k ≤ i)
    (hi : i < total) : (echoRun x alpha nd total k)[i]? = some (.fin 0) := by
  induction k with
  | zero => simp [echoRun, List.getElem?_replicate, hi]
  | succ k ih =>
    rw [echoRun_succ, echoStep_getElem?_ne _ _ _ _ _ _ (by omega)]
    exact ih (by omega)

theorem echoRun_stable (x : List JSNum) (alpha : JSNum) (nd total i : Nat) :
    ∀ k, i < k → (echoRun x alpha nd total k)[i]? = (echoRun x alpha nd total (i + 1))[i]? := by
  intro k
  induction k with
  | zero => intro h; omega
  | succ k ih =>
    intro h
    by_cases hk : i = k
    · subst hk; rfl
    · rw [echoRun_succ, echoStep_getElem?_ne _ _ _ _ _ _ hk]
      exact ih (by omega)

/-- Sample `n` of the finished echo loop in terms of the array just before iteration `n`. -/
theorem echoRun_final (x : List JSNum) (alpha : JSNum) (nd total n : Nat) (h : n < total) :
    (echoRun x alpha nd total total)[n]? = some
      (if n < nd then (x.getD n (.fin 0)).fround
       else ((x.getD n (.fin 0)).add
          (alpha.mul ((echoRun x alpha nd total n).getD (n - nd) .nan))).fround) := by
  rw [echoRun_stable _ _ _ _ _ _ h, echoRun_succ, echoStep_getElem?_self]
  rw [echoRun_length]; exact h

theorem echoRun_rec (x : List JSNum) (alpha : JSNum) (nd total n : Nat) (hnd : 1 ≤ nd)
    (h : n < total) (hn : nd ≤ n) :
    (echoRun x alpha nd total total)[n]? = some
      (((x.getD n (.fin 0)).add
          (alpha.mul ((echoRun x alpha nd total total).getD (n - nd) .nan))).fround) := by
  rw [echoRun_final _ _ _ _ _ h, if_neg (by omega)]
  simp only [List.getD_eq_getElem?_getD]
  rw [echoRun_stable _ _ _ _ (n - nd) total (by omega),
      echoRun_stable _ _ _ _ (n - nd) n (by omega)]

theorem padded_getElem? (x : List JSNum) (tail n : Nat) (h : n < x.length + tail) :
    (x ++ List.replicate tail (.fin 0))[n]? = some (x.getD n (.fin 0)) := by
  by_cases hn : n < x.length
  · rw [List.getElem?_append_left hn, List.getD_eq_getElem?_getD, List.getElem?_eq_getElem hn]
    rfl
  · have hn2 : x.length ≤ n := Nat.le_of_not_lt hn
    rw [List.getElem?_append_right hn2, List.getD_eq_getElem?_getD,
      List.getElem?_eq_none hn2, List.getElem?_replicate]
    simp
    omega

theorem echoLoop_eq_padded (x : List JSNum) (alpha : JSNum) (nd tail : Nat)
    (h : ∀ n, n < x.length + tail →
      (echoRun x alpha nd (x.length + tail) (x.length + tail))[n]? = some (x.getD n (.fin 0))) :
    echoLoop x alpha nd tail = x ++ List.replicate tail (.fin 0) := by
  rw [echoLoop_eq_echoRun]
  apply List.ext_getElem?
  intro n
  by_cases hn : n < x.length + tail
  · rw [padded_getElem? x tail n hn]
    exact h n hn
  · rw [List.getElem?_eq_none, List.getElem?_eq_none]
    · simp; omega
    · rw [echoRun_length]; omega

theorem getD_fround (x : List JSNum) (hx : ∀ v ∈ x, v.fround = v) (n : Nat) :
    (x.getD n (.fin 0)).fround = x.getD n (.fin 0) := by
  rw [List.getD_eq_getElem?_getD]
  by_cases hn : n < x.length
  · rw [List.getElem?_eq_getElem hn]
    exact hx _ (List.getElem_mem hn)
  · rw [List.getElem?_eq_none (Nat.le_of_not_lt hn)]
    exact fround_zero

theorem getD_finite (x : List JSNum) (hx : ∀ v ∈ x, v.FiniteFloat32) (n : Nat) :
    (x.getD n (.fin 0)).FiniteFloat32 := by
  rw [List.getD_eq_getElem?_getD]
  by_cases hn : n < x.length
  · rw [List.getElem?_eq_getElem hn]
    exact hx _ (List.getElem_mem hn)
  · rw [List.getElem?_eq_none (Nat.le_of_not_lt hn)]
    exact ⟨0, rfl, roundBinary_zero 24 (-126) 127⟩

theorem FiniteFloat32.fround_eq (v : JSNum) (h : v.FiniteFloat32) : v.fround = v := by
  obtain ⟨q, rfl, hq⟩ := h
  exact hq

theorem roundDouble_exact (n k : Int) (hn : |(n : ℚ)| < (2 : ℚ) ^ (53 : Int)) (hk : -1074 ≤ k)
    (hfin : |(n : ℚ) * (2 : ℚ) ^ k| < (2 : ℚ) ^ (1024 : Int)) :
    roundDouble ((n : ℚ) * (2 : ℚ) ^ k) = .fin ((n : ℚ) * (2 : ℚ) ^ k) :=
  roundBinary_exact 53 (-1022) 1023 n k (by exact_mod_cast hn) (by push_cast; omega)
    (by norm_num at hfin ⊢; exact hfin)

theorem roundFloat32_exact (n k : Int) (hn : |(n : ℚ)| < (2 : ℚ) ^ (24 : Int)) (hk : -149 ≤ k)
    (hfin : |(n : ℚ) * (2 : ℚ) ^ k| < (2 : ℚ) ^ (128 : Int)) :
    roundFloat32 ((n : ℚ) * (2 : ℚ) ^ k) = .fin ((n : ℚ) * (2 : ℚ) ^ k) :=
  roundBinary_exact 24 (-126) 127 n k (by exact_mod_cast hn) (by push_cast; omega)
    (by norm_num at hfin ⊢; exact hfin)

theorem roundDouble_one : roundDouble 1 = .fin 1 := by
  have := roundDouble_exact 1 0 (by norm_num) (by norm_num) (by norm_num)
  simpa using this

theorem roundDouble_half : roundDouble (1 / 2) = .fin (1 / 2) := by
  have := roundDouble_exact 1 (-1) (by norm_num) (by norm_num) (by norm_num [abs_lt])
  simpa using this

theorem roundDouble_quarter : roundDouble (1 / 4) = .fin (1 / 4) := by
  have := roundDouble_exact 1 (-2) (by norm_num) (by norm_num) (by norm_num [abs_lt])
  norm_num at this ⊢
  exact this

theorem roundFloat32_one : roundFloat32 1 = .fin 1 := by
  have := roundFloat32_exact 1 0 (by norm_num) (by norm_num) (by norm_num)
  simpa using this

theorem roundFloat32_half : roundFloat32 (1 / 2) = .fin (1 / 2) := by
  have := roundFloat32_exact 1 (-1) (by norm_num) (by norm_num) (by norm_num [abs_lt])
  simpa using this

theorem roundFloat32_quarter : roundFloat32 (1 / 4) = .fin (1 / 4) := by
  have := roundFloat32_exact 1 (-2) (by norm_num) (by norm_num) (by norm_num [abs_lt])
  norm_num at this ⊢
  exact this

theorem jsLiteral_half : jsLiteral 0.5 = .fin (1 / 2) := by
  have h : (0.5 : ℚ) = 1 / 2 := by norm_num
  rw [jsLiteral, h, roundDouble_half]

theorem echoLoop_scenario :
    echoLoop [.fin 1, .fin 0, .fin 0, .fin 0] (jsLiteral 0.5) 2 2
      = [.fin 1, .fin 0, .fin 0.5, .fin 0, .fin 0.25, .fin 0] := by
  have h5 : (0.5 : ℚ) = 1 / 2 := by norm_num
  have h25 : (0.25 : ℚ) = 1 / 4 := by norm_num
  have m1 : (JSNum.fin (1 / 2)).mul (.fin 1) = .fin (1 / 2) := by
    show roundDouble (1 / 2 * 1) = _
    rw [mul_one, roundDouble_half]
  have m2 : (JSNum.fin (1 / 2)).mul (.fin (1 / 2)) = .fin (1 / 4) := by
    show roundDouble (1 / 2 * (1 / 2)) = _
    norm_num
    have := roundDouble_quarter
    norm_num at this
    exact this
  have a1 : (JSNum.fin 0).add (.fin (1 / 2)) = .fin (1 / 2) := by
    show roundDouble (0 + 1 / 2) = _
    rw [zero_add, roundDouble_half]
  have a2 : (JSNum.fin 0).add (.fin (1 / 4)) = .fin (1 / 4) := by
    show roundDouble (0 + 1 / 4) = _
    rw [zero_add, roundDouble_quarter]
  have a0 : (JSNum.fin 0).add (.fin 0) = .fin 0 := by
    show roundDouble (0 + 0) = _
    rw [zero_add, roundDouble_zero]
  have f1 : (JSNum.fin 1).fround = .fin 1 := roundFloat32_one
  have f2 : (JSNum.fin (1 / 2)).fround = .fin (1 / 2) := roundFloat32_half
  have f4 : (JSNum.fin (1 / 4)).fround = .fin (1 / 4) := roundFloat32_quarter
  rw [jsLiteral_half, h5, h25]
  simp only [echoLoop, echoStep, List.range, List.range.loop, List.replicate, List.foldl,
    List.length_cons, List.length_nil]
  simp only [one_div] at m1 m2 a1 a2 f2 f4
  simp [mul_fin_zero, m1, m2, a0, a1, a2, f1, f2, f4, fround_zero]

theorem jsLiteral_three_tenths :
    jsLiteral 0.3 = .fin (5404319552844595 / 18014398509481984) := by
  have h : (0.3 : ℚ) = 3 / 10 := by norm_num
  rw [jsLiteral, h]
  have := roundBinary_eval 53 (-1022) 1023 (3 / 10) (-2) 5404319552844595
    (by norm_num [abs_of_pos]) (by norm_num [abs_of_pos]) (by norm_num)
    (by norm_num [abs_lt]) (by norm_num [abs_lt])
  norm_num at this
  exact this

theorem roundDouble_three_tenths :
    roundDouble (5404319552844595 / 18014398509481984)
      = .fin (5404319552844595 / 18014398509481984) := by
  have := roundDouble_exact 5404319552844595 (-54) (by norm_num [abs_lt]) (by norm_num)
    (by norm_num [abs_lt])
  norm_num at this
  exact this

theorem roundFloat32_three_tenths :
    roundFloat32 (5404319552844595 / 18014398509481984) = .fin (5033165 / 16777216) := by
  have := roundBinary_eval 24 (-126) 127 (5404319552844595 / 18014398509481984) (-2) 10066330
    (by norm_num [abs_of_pos]) (by norm_num [abs_of_pos]) (by norm_num)
    (by norm_num [abs_lt]) (by norm_num [abs_lt])
  norm_num at this
  exact this

theorem echoLoop_three_tenths :
    echoLoop [.fin 1, .fin 0] (jsLiteral 0.3) 1 0 = [.fin 1, .fin (5033165 / 16777216)] := by
  have m1 : (JSNum.fin (5404319552844595 / 18014398509481984)).mul (.fin 1)
      = .fin (5404319552844595 / 18014398509481984) := by
    show roundDouble (5404319552844595 / 18014398509481984 * 1) = _
    rw [mul_one, roundDouble_three_tenths]
  have a1 : (JSNum.fin 0).add (.fin (5404319552844595 / 18014398509481984))
      = .fin (5404319552844595 / 18014398509481984) := by
    show roundDouble (0 + 5404319552844595 / 18014398509481984) = _
    rw [zero_add, roundDouble_three_tenths]
  have f1 : (JSNum.fin 1).fround = .fin 1 := roundFloat32_one
  have f3 : (JSNum.fin (5404319552844595 / 18014398509481984)).fround
      = .fin (5033165 / 16777216) := roundFloat32_three_tenths
  rw [jsLiteral_three_tenths]
  simp only [echoLoop, echoStep, List.range, List.range.loop, List.replicate, List.foldl,
    List.length_cons, List.length_nil]
  simp [m1, a1, f1, f3]

theorem scan_posInf (v : JSNum) :
    (if v.abs.gt .posInf then v.abs else JSNum.posInf) = .posInf := by
  cases v <;> simp [JSNum.abs, JSNum.gt]

theorem scan_fin (a : ℚ) (v : JSNum) :
    (if v.abs.gt (.fin a) then v.abs else JSNum.fin a) =
      match v with
      | .fin c => .fin (max a |c|)
      | .nan => .fin a
      | _ => .posInf := by
  cases v with
  | fin c =>
    simp only [JSNum.abs, JSNum.gt, decide_eq_true_eq]
    by_cases h : a < |c|
    · rw [if_pos h, max_eq_right (le_of_lt h)]
    · rw [if_neg h, max_eq_left (not_lt.mp h)]
  | posInf => simp [JSNum.abs, JSNum.gt]
  | negInf => simp [JSNum.abs, JSNum.gt]
  | nan => simp [JSNum.abs, JSNum.gt]

theorem scan_fold_posInf (y : List JSNum) :
    y.foldl (fun maxVal v => if v.abs.gt maxVal then v.abs else maxVal) .posInf = .posInf := by
  induction y with
  | nil => rfl
  | cons v t ih => simp only [List.foldl_cons, scan_posInf]; exact ih

/-- The peak scan from a non-negative finite start: shape, bounds and attainment. -/
theorem scan_fold (y : List JSNum) :
    ∀ a : ℚ, 0 ≤ a →
      let R := y.foldl (fun maxVal v => if v.abs.gt maxVal then v.abs else maxVal) (.fin a)
      R.PeakShape ∧
      (∀ M, R = .fin M → a ≤ M ∧ ∀ v ∈ y, v.Within M) ∧
      (R = .fin a ∨ ∃ v ∈ y, v.abs = R) := by
  induction y with
  | nil =>
    intro a ha
    exact ⟨Or.inr ⟨a, rfl, ha⟩,
      fun M hM => ⟨le_of_eq (JSNum.fin.inj hM), fun v hv => (by cases hv)⟩, Or.inl rfl⟩
  | cons v t ih =>
    intro a ha
    simp only [List.foldl_cons, scan_fin]
    cases v with
    | fin c =>
      simp only
      obtain ⟨s1, s2, s3⟩ := ih (max a |c|) (le_trans ha (le_max_left _ _))
      refine ⟨s1, ?_, ?_⟩
      · intro M hM
        obtain ⟨b1, b2⟩ := s2 M hM
        refine ⟨le_trans (le_max_left _ _) b1, ?_⟩
        intro w hw
        rcases List.mem_cons.mp hw with h | h
        · subst h; exact Or.inr ⟨c, rfl, le_trans (le_max_right _ _) b1⟩
        · exact b2 w h
      · rcases s3 with h | ⟨w, hw, h⟩
        · rcases max_cases a |c| with ⟨hm, _⟩ | ⟨hm, _⟩
          · left; rw [h, hm]
          · right; exact ⟨.fin c, List.mem_cons_self _ _, by rw [h, hm]; rfl⟩
        · right; exact ⟨w, List.mem_cons_of_mem _ hw, h⟩
    | nan =>
      simp only
      obtain ⟨s1, s2, s3⟩ := ih a ha
      refine ⟨s1, ?_, ?_⟩
      · intro M hM
        obtain ⟨b1, b2⟩ := s2 M hM
        refine ⟨b1, ?_⟩
        intro w hw
        rcases List.mem_cons.mp hw with h | h
        · subst h; exact Or.inl rfl
        · exact b2 w h
      · rcases s3 with h | ⟨w, hw, h⟩
        · left; exact h
        · right; exact ⟨w, List.mem_cons_of_mem _ hw, h⟩
    | posInf =>
      simp only [scan_fold_posInf]
      exact ⟨Or.inl rfl, fun M hM => (by cases hM),
        Or.inr ⟨.posInf, List.mem_cons_self _ _, rfl⟩⟩
    | negInf =>
      simp only [scan_fold_posInf]
      exact ⟨Or.inl rfl, fun M hM => (by cases hM),
        Or.inr ⟨.negInf, List.mem_cons_self _ _, rfl⟩⟩

/-- The peak scan over values within `b`, from a start within `[0, b]`, stays within `[0, b]`. -/
theorem scan_fold_within (b : ℚ) (y : List JSNum) (hy : ∀ v ∈ y, v.Within b) :
    ∀ a : ℚ, 0 ≤ a → a ≤ b →
      ∃ m : ℚ, y.foldl (fun maxVal v => if v.abs.gt maxVal then v.abs else maxVal) (.fin a)
        = .fin m ∧ 0 ≤ m ∧ m ≤ b := by
  induction y with
  | nil => intro a h0 hb; exact ⟨a, rfl, h0, hb⟩
  | cons v t ih =>
    intro a h0 hb
    simp only [List.foldl_cons, scan_fin]
    have ht : ∀ w ∈ t, w.Within b := fun w hw => hy w (List.mem_cons_of_mem _ hw)
    rcases hy v (List.mem_cons_self _ _) with h | ⟨c, h, hc⟩
    · subst h
      exact ih ht a h0 hb
    · subst h
      exact ih ht (max a |c|) (le_trans h0 (le_max_left _ _)) (max_le hb hc)

theorem maxAbs_shape (y : List JSNum) : (maxAbs y).PeakShape := (scan_fold y 0 (le_refl 0)).1

theorem jsLiteral_one : jsLiteral 1.0 = .fin 1 := by
  have h : (1.0 : ℚ) = 1 := by norm_num
  rw [jsLiteral, h, roundDouble_one]

theorem roundDouble_within_one (q : ℚ) (hq : |q| ≤ 1) :
    ∃ r : ℚ, roundDouble q = .fin r ∧ |r| ≤ 1 :=
  roundBinary_abs_le_one 53 (-1022) 1023 (by norm_num) (by norm_num) (by norm_num) q hq

theorem roundFloat32_within_one (q : ℚ) (hq : |q| ≤ 1) :
    ∃ r : ℚ, roundFloat32 q = .fin r ∧ |r| ≤ 1 :=
  roundBinary_abs_le_one 24 (-126) 127 (by norm_num) (by norm_num) (by norm_num) q hq

/-- The value stored by the scaling loop for a sample within a finite peak above one. -/
theorem scaled_within_fin (v : JSNum) (M : ℚ) (hM : 1 < M) (hv : v.Within M) :
    ((((v.div (.fin M)).mul (jsLiteral 0.95)).fround)).Within 1 := by
  have hM0 : M ≠ 0 := by intro h; rw [h] at hM; norm_num at hM
  have hMpos : 0 < M := lt_trans one_pos hM
  obtain ⟨c, hc, hc1⟩ := roundDouble_within_one 0.95 (by norm_num [abs_le])
  rw [jsLiteral, hc]
  rcases hv with h | ⟨a, h, ha⟩
  · subst h; left; rfl
  · subst h
    obtain ⟨d, hd, hd1⟩ := roundDouble_within_one (a / M)
      (by rw [abs_div, abs_of_pos hMpos, div_le_one hMpos]; exact ha)
    have hdc : |d * c| ≤ 1 := by
      rw [abs_mul]
      calc |d| * |c| ≤ 1 * 1 := mul_le_mul hd1 hc1 (abs_nonneg _) (by norm_num)
        _ = 1 := by norm_num
    obtain ⟨t, ht, ht1⟩ := roundDouble_within_one (d * c) hdc
    obtain ⟨r, hr, hr1⟩ := roundFloat32_within_one t ht1
    have e1 : (JSNum.fin a).div (.fin M) = .fin d := by
      show (if M = 0 then _ else roundDouble (a / M)) = _
      rw [if_neg hM0, hd]
    have e2 : (JSNum.fin d).mul (.fin c) = .fin t := ht
    rw [e1, e2]
    exact Or.inr ⟨r, hr, hr1⟩

/-- The value stored by the scaling loop when the peak is `+Infinity`. -/
theorem scaled_within_posInf (v : JSNum) :
    ((((v.div .posInf).mul (jsLiteral 0.95)).fround)).Within 1 := by
  obtain ⟨c, hc, _⟩ := roundDouble_within_one 0.95 (by norm_num [abs_le])
  rw [jsLiteral, hc]
  cases v with
  | fin a =>
    right
    refine ⟨0, ?_, by norm_num⟩
    show (roundDouble (0 * c)).fround = _
    rw [zero_mul, roundDouble_zero]
    exact fround_zero
  | posInf => left; rfl
  | negInf => left; rfl
  | nan => left; rfl

/-- After the normalisation step the peak is finite, at most one, and at most the input peak. -/
theorem maxAbs_normalize (y : List JSNum) :
    ∃ m : ℚ, maxAbs (normalize y) = .fin m ∧ 0 ≤ m ∧ m ≤ 1 ∧
      (maxAbs y = .posInf ∨ ∃ M : ℚ, maxAbs y = .fin M ∧ m ≤ M) := by
  obtain ⟨_, hb, _⟩ := scan_fold y 0 (le_refl 0)
  by_cases hgt : (maxAbs y).gt (jsLiteral 1.0) = true
  · have hn : normalize y = y.map (fun v => ((v.div (maxAbs y)).mul (jsLiteral 0.95)).fround) := by
      unfold normalize
      simp only
      rw [if_pos hgt]
    have hwithin : ∀ w ∈ normalize y, w.Within 1 := by
      intro w hw
      rw [hn] at hw
      obtain ⟨v, hv, rfl⟩ := List.mem_map.mp hw
      rcases maxAbs_shape y with hM | ⟨M, hM, _⟩
      · rw [hM]; exact scaled_within_posInf v
      · have hM1 : 1 < M := by
          rw [hM, jsLiteral_one] at hgt
          simpa [JSNum.gt] using hgt
        rw [hM]
        exact scaled_within_fin v M hM1 ((hb M hM).2 v hv)
    obtain ⟨m, hm, hm0, hm1⟩ := scan_fold_within 1 (normalize y) hwithin 0 (le_refl 0) (by norm_num)
    refine ⟨m, hm, hm0, hm1, ?_⟩
    rcases maxAbs_shape y with hM | ⟨M, hM, _⟩
    · exact Or.inl hM
    · right
      refine ⟨M, hM, ?_⟩
      rw [hM, jsLiteral_one] at hgt
      have : 1 < M := by simpa [JSNum.gt] using hgt
      linarith
  · have hn : normalize y = y := by
      unfold normalize
      simp only
      rw [if_neg hgt]
    rcases maxAbs_shape y with hM | ⟨M, hM, hM0⟩
    · rw [hM, jsLiteral_one] at hgt
      exact absurd rfl hgt
    · rw [hM, jsLiteral_one] at hgt
      have hM1 : M ≤ 1 := by simpa [JSNum.gt] using hgt
      exact ⟨M, by rw [hn, hM], hM0, hM1, Or.inr ⟨M, hM, le_refl M⟩⟩

theorem roundDouble_two_tenths : roundDouble (1 / 5) = .fin (3602879701896397 / 18014398509481984) := by
  have := roundBinary_eval 53 (-1022) 1023 (1 / 5) (-3) (7205759403792794)
    (by norm_num [le_abs]) (by norm_num [abs_lt]) (by norm_num)
    (by norm_num [abs_lt]) (by norm_num [abs_lt])
  norm_num [roundDouble] at this ⊢
  exact this

theorem roundFloat32_two_tenths : roundFloat32 (3602879701896397 / 18014398509481984) = .fin (13421773 / 67108864) := by
  have := roundBinary_eval 24 (-126) 127 (3602879701896397 / 18014398509481984) (-3) (13421773)
    (by norm_num [le_abs]) (by norm_num [abs_lt]) (by norm_num)
    (by norm_num [abs_lt]) (by norm_num [abs_lt])
  norm_num [roundFloat32] at this ⊢
  exact this

theorem roundDouble_neg_three_tenths : roundDouble (-3 / 10) = .fin (-5404319552844595 / 18014398509481984) := by
  have := roundBinary_eval 53 (-1022) 1023 (-3 / 10) (-2) (-5404319552844595)
    (by norm_num [le_abs]) (by norm_num [abs_lt]) (by norm_num)
    (by norm_num [abs_lt]) (by norm_num [abs_lt])
  norm_num [roundDouble] at this ⊢
  exact this

theorem roundFloat32_neg_three_tenths : roundFloat32 (-5404319552844595 / 18014398509481984) = .fin (-5033165 / 16777216) := by
  have := roundBinary_eval 24 (-126) 127 (-5404319552844595 / 18014398509481984) (-2) (-10066330)
    (by norm_num [le_abs]) (by norm_num [abs_lt]) (by norm_num)
    (by norm_num [abs_lt]) (by norm_num [abs_lt])
  norm_num [roundFloat32] at this ⊢
  exact this

theorem roundDouble_one_tenth : roundDouble (1 / 10) = .fin (3602879701896397 / 36028797018963968) := by
  have := roundBinary_eval 53 (-1022) 1023 (1 / 10) (-4) (7205759403792794)
    (by norm_num [le_abs]) (by norm_num [abs_lt]) (by norm_num)
    (by norm_num [abs_lt]) (by norm_num [abs_lt])
  norm_num [roundDouble] at this ⊢
  exact this

theorem roundFloat32_one_tenth : roundFloat32 (3602879701896397 / 36028797018963968) = .fin (13421773 / 134217728) := by
  have := roundBinary_eval 24 (-126) 127 (3602879701896397 / 36028797018963968) (-4) (13421773)
    (by norm_num [le_abs]) (by norm_num [abs_lt]) (by norm_num)
    (by norm_num [abs_lt]) (by norm_num [abs_lt])
  norm_num [roundFloat32] at this ⊢
  exact this

theorem roundDouble_neg_three_halves : roundDouble (-3 / 2) = .fin (-3 / 2) := by
  have := roundBinary_eval 53 (-1022) 1023 (-3 / 2) (0) (-6755399441055744)
    (by norm_num [le_abs]) (by norm_num [abs_lt]) (by norm_num)
    (by norm_num [abs_lt]) (by norm_num [abs_lt])
  norm_num [roundDouble] at this ⊢
  exact this

theorem roundFloat32_neg_three_halves : roundFloat32 (-3 / 2) = .fin (-3 / 2) := by
  have := roundBinary_eval 24 (-126) 127 (-3 / 2) (0) (-12582912)
    (by norm_num [le_abs]) (by norm_num [abs_lt]) (by norm_num)
    (by norm_num [abs_lt]) (by norm_num [abs_lt])
  norm_num [roundFloat32] at this ⊢
  exact this

theorem roundDouble_twelve_tenths : roundDouble (6 / 5) = .fin (5404319552844595 / 4503599627370496) := by
  have := roundBinary_eval 53 (-1022) 1023 (6 / 5) (0) (5404319552844595)
    (by norm_num [le_abs]) (by norm_num [abs_lt]) (by norm_num)
    (by norm_num [abs_lt]) (by norm_num [abs_lt])
  norm_num [roundDouble] at this ⊢
  exact this

theorem roundFloat32_twelve_tenths : roundFloat32 (5404319552844595 / 4503599627370496) = .fin (5033165 / 4194304) := by
  have := roundBinary_eval 24 (-126) 127 (5404319552844595 / 4503599627370496) (0) (10066330)
    (by norm_num [le_abs]) (by norm_num [abs_lt]) (by norm_num)
    (by norm_num [abs_lt]) (by norm_num [abs_lt])
  norm_num [roundFloat32] at this ⊢
  exact this

theorem roundDouble_ninety_five : roundDouble (19 / 20) = .fin (4278419646001971 / 4503599627370496) := by
  have := roundBinary_eval 53 (-1022) 1023 (19 / 20) (-1) (8556839292003942)
    (by norm_num [le_abs]) (by norm_num [abs_lt]) (by norm_num)
    (by norm_num [abs_lt]) (by norm_num [abs_lt])
  norm_num [roundDouble] at this ⊢
  exact this

theorem scaled_div_two_tenths : roundDouble (13421773 / 100663296) = .fin (4803839674111317 / 36028797018963968) := by
  have := roundBinary_eval 53 (-1022) 1023 (13421773 / 100663296) (-3) (4803839674111317)
    (by norm_num [le_abs]) (by norm_num [abs_lt]) (by norm_num)
    (by norm_num [abs_lt]) (by norm_num [abs_lt])
  norm_num [roundDouble] at this ⊢
  exact this

theorem scaled_mul_two_tenths : roundDouble (20552842037961564611731455405807 / 162259276829213363391578010288128) = .fin (4563647690405751 / 36028797018963968) := by
  have := roundBinary_eval 53 (-1022) 1023 (20552842037961564611731455405807 / 162259276829213363391578010288128) (-3) (4563647690405751)
    (by norm_num [le_abs]) (by norm_num [abs_lt]) (by norm_num)
    (by norm_num [abs_lt]) (by norm_num [abs_lt])
  norm_num [roundDouble] at this ⊢
  exact this

theorem scaled_store_two_tenths : roundFloat32 (4563647690405751 / 36028797018963968) = .fin (1062557 / 8388608) := by
  have := roundBinary_eval 24 (-126) 127 (4563647690405751 / 36028797018963968) (-3) (8500456)
    (by norm_num [le_abs]) (by norm_num [abs_lt]) (by norm_num)
    (by norm_num [abs_lt]) (by norm_num [abs_lt])
  norm_num [roundFloat32] at this ⊢
  exact this

theorem scaled_div_neg_three_halves : roundDouble (-1) = .fin (-1) := by
  have := roundBinary_eval 53 (-1022) 1023 (-1) (0) (-4503599627370496)
    (by norm_num [le_abs]) (by norm_num [abs_lt]) (by norm_num)
    (by norm_num [abs_lt]) (by norm_num [abs_lt])
  norm_num [roundDouble] at this ⊢
  exact this

theorem scaled_mul_neg_three_halves : roundDouble (-4278419646001971 / 4503599627370496) = .fin (-4278419646001971 / 4503599627370496) := by
  have := roundBinary_eval 53 (-1022) 1023 (-4278419646001971 / 4503599627370496) (-1) (-8556839292003942)
    (by norm_num [le_abs]) (by norm_num [abs_lt]) (by norm_num)
    (by norm_num [abs_lt]) (by norm_num [abs_lt])
  norm_num [roundDouble] at this ⊢
  exact this

theorem scaled_store_neg_three_halves : roundFloat32 (-4278419646001971 / 4503599627370496) = .fin (-15938355 / 16777216) := by
  have := roundBinary_eval 24 (-126) 127 (-4278419646001971 / 4503599627370496) (-1) (-15938355)
    (by norm_num [le_abs]) (by norm_num [abs_lt]) (by norm_num)
    (by norm_num [abs_lt]) (by norm_num [abs_lt])
  norm_num [roundFloat32] at this ⊢
  exact this

theorem scaled_div_twelve_tenths : roundDouble (5033165 / 6291456) = .fin (7205759690123947 / 9007199254740992) := by
  have := roundBinary_eval 53 (-1022) 1023 (5033165 / 6291456) (-1) (7205759690123947)
    (by norm_num [le_abs]) (by norm_num [abs_lt]) (by norm_num)
    (by norm_num [abs_lt]) (by norm_num [abs_lt])
  norm_num [roundDouble] at this ⊢
  exact this

theorem scaled_mul_twelve_tenths : roundDouble (30829263822595369572211996299537 / 40564819207303340847894502572032) = .fin (6845471705617749 / 9007199254740992) := by
  have := roundBinary_eval 53 (-1022) 1023 (30829263822595369572211996299537 / 40564819207303340847894502572032) (-1) (6845471705617749)
    (by norm_num [le_abs]) (by norm_num [abs_lt]) (by norm_num)
    (by norm_num [abs_lt]) (by norm_num [abs_lt])
  norm_num [roundDouble] at this ⊢
  exact this

theorem scaled_store_twelve_tenths : roundFloat32 (6845471705617749 / 9007199254740992) = .fin (12750685 / 16777216) := by
  have := roundBinary_eval 24 (-126) 127 (6845471705617749 / 9007199254740992) (-1) (12750685)
    (by norm_num [le_abs]) (by norm_num [abs_lt]) (by norm_num)
    (by norm_num [abs_lt]) (by norm_num [abs_lt])
  norm_num [roundFloat32] at this ⊢
  exact this

theorem float32Array_quiet :
    float32Array [0.2, -0.3, 0.1] =
      [.fin (13421773 / 67108864), .fin (-5033165 / 16777216), .fin (13421773 / 134217728)] := by
  have h1 : (0.2 : ℚ) = 1 / 5 := by norm_num
  have h2 : (-0.3 : ℚ) = -3 / 10 := by norm_num
  have h3 : (0.1 : ℚ) = 1 / 10 := by norm_num
  simp only [float32Array, List.map, jsLiteral, h1, h2, h3, roundDouble_two_tenths,
    roundDouble_neg_three_tenths, roundDouble_one_tenth, JSNum.fround, roundFloat32_two_tenths,
    roundFloat32_neg_three_tenths, roundFloat32_one_tenth]

theorem float32Array_loud :
    float32Array [0.2, -1.5, 1.2] =
      [.fin (13421773 / 67108864), .fin (-3 / 2), .fin (5033165 / 4194304)] := by
  have h1 : (0.2 : ℚ) = 1 / 5 := by norm_num
  have h2 : (-1.5 : ℚ) = -3 / 2 := by norm_num
  have h3 : (1.2 : ℚ) = 6 / 5 := by norm_num
  simp only [float32Array, List.map, jsLiteral, h1, h2, h3, roundDouble_two_tenths,
    roundDouble_neg_three_halves, roundDouble_twelve_tenths, JSNum.fround,
    roundFloat32_two_tenths, roundFloat32_neg_three_halves, roundFloat32_twelve_tenths]

theorem maxAbs_quiet : maxAbs (float32Array [0.2, -0.3, 0.1]) = .fin (5033165 / 16777216) := by
  rw [float32Array_quiet]
  simp only [maxAbs, List.foldl, scan_fin]
  norm_num [abs_of_pos, abs_of_neg]

theorem maxAbs_loud : maxAbs (float32Array [0.2, -1.5, 1.2]) = .fin (3 / 2) := by
  rw [float32Array_loud]
  simp only [maxAbs, List.foldl, scan_fin]
  norm_num [abs_of_pos, abs_of_neg]

theorem jsLiteral_ninety_five : jsLiteral 0.95 = .fin (4278419646001971 / 4503599627370496) := by
  have h : (0.95 : ℚ) = 19 / 20 := by norm_num
  rw [jsLiteral, h, roundDouble_ninety_five]

theorem scaled_value (v d t s : ℚ) (hd : roundDouble (v / (3 / 2)) = .fin d)
    (ht : roundDouble (d * (4278419646001971 / 4503599627370496)) = .fin t)
    (hs : roundFloat32 t = .fin s) :
    (((JSNum.fin v).div (.fin (3 / 2))).mul (jsLiteral 0.95)).fround = .fin s := by
  have e1 : (JSNum.fin v).div (.fin (3 / 2)) = .fin d := by
    show (if (3 / 2 : ℚ) = 0 then _ else roundDouble (v / (3 / 2))) = _
    rw [if_neg (by norm_num), hd]
  rw [e1, jsLiteral_ninety_five]
  show (roundDouble (d * (4278419646001971 / 4503599627370496))).fround = _
  rw [ht]
  exact hs

theorem normalize_loud :
    normalize (float32Array [0.2, -1.5, 1.2]) =
      [.fin (1062557 / 8388608), .fin (-15938355 / 16777216), .fin (12750685 / 16777216)] := by
  have hgt : (JSNum.fin (3 / 2)).gt (jsLiteral 1.0) = true := by
    rw [jsLiteral_one]
    simp only [JSNum.gt, decide_eq_true_eq]
    norm_num
  unfold normalize
  simp only
  rw [maxAbs_loud, if_pos hgt, float32Array_loud]
  simp only [List.map]
  rw [scaled_value (13421773 / 67108864) _ _ _
        (by have := scaled_div_two_tenths; norm_num at this ⊢; exact this)
        (by have := scaled_mul_two_tenths; norm_num at this ⊢; exact this)
        scaled_store_two_tenths,
      scaled_value (-3 / 2) _ _ _
        (by have := scaled_div_neg_three_halves; norm_num at this ⊢; exact this)
        (by have := scaled_mul_neg_three_halves; norm_num at this ⊢; exact this)
        scaled_store_neg_three_halves,
      scaled_value (5033165 / 4194304) _ _ _
        (by have := scaled_div_twelve_tenths; norm_num at this ⊢; exact this)
        (by have := scaled_mul_twelve_tenths; norm_num at this ⊢; exact this)
        scaled_store_twelve_tenths]

theorem maxAbs_normalize_loud :
    maxAbs (normalize (float32Array [0.2, -1.5, 1.2])) = .fin (15938355 / 16777216) := by
  rw [normalize_loud]
  simp only [maxAbs, List.foldl, scan_fin]
  norm_num [abs_of_pos, abs_of_neg]

theorem roundDouble_ninety_eight : roundDouble (49 / 50) = .fin (2206763817411543 / 2251799813685248) := by
  have := roundBinary_eval 53 (-1022) 1023 (49 / 50) (-1) (8827055269646172)
    (by norm_num [le_abs]) (by norm_num [abs_lt]) (by norm_num)
    (by norm_num [abs_lt]) (by norm_num [abs_lt])
  norm_num [roundDouble] at this ⊢
  exact this

theorem roundFloat32_ninety_eight : roundFloat32 (2206763817411543 / 2251799813685248) = .fin (2055209 / 2097152) := by
  have := roundBinary_eval 24 (-126) 127 (2206763817411543 / 2251799813685248) (-1) (16441672)
    (by norm_num [le_abs]) (by norm_num [abs_lt]) (by norm_num)
    (by norm_num [abs_lt]) (by norm_num [abs_lt])
  norm_num [roundFloat32] at this ⊢
  exact this

theorem toRat_getD_finite (x : List JSNum) (hx : ∀ v ∈ x, v.FiniteFloat32) (n : Nat) :
    x.getD n (.fin 0) = .fin (x.getD n (.fin 0)).toRat := by
  obtain ⟨q, hq, _⟩ := getD_finite x hx n
  rw [hq]; rfl

theorem impulse_getD (m j : Nat) :
    (JSNum.fin 1 :: List.replicate m (.fin 0)).getD j (.fin 0) = .fin (if j = 0 then 1 else 0) := by
  cases j with
  | zero => simp
  | succ j =>
    simp only [List.getD_eq_getElem?_getD, List.getElem?_cons_succ, List.getElem?_replicate]
    split <;> simp

theorem echoLoop_scenario_half :
    echoLoop [.fin 1, .fin 0, .fin 0, .fin 0] (.fin (1 / 2)) 2 2
      = [.fin 1, .fin 0, .fin (1 / 2), .fin 0, .fin (1 / 4), .fin 0] := by
  have h := echoLoop_scenario
  have h5 : (0.5 : ℚ) = 1 / 2 := by norm_num
  have h25 : (0.25 : ℚ) = 1 / 4 := by norm_num
  rw [jsLiteral_half, h5, h25] at h
  exact h

theorem impulse_finite :
    ∀ v ∈ [JSNum.fin 1, .fin 0, .fin 0, .fin 0], v.FiniteFloat32 := by
  intro v hv
  simp only [List.mem_cons, List.mem_singleton, List.not_mem_nil, or_false] at hv
  rcases hv with rfl | rfl | rfl | rfl
  · exact ⟨1, rfl, roundFloat32_one⟩
  · exact ⟨0, rfl, roundBinary_zero 24 (-126) 127⟩
  · exact ⟨0, rfl, roundBinary_zero 24 (-126) 127⟩
  · exact ⟨0, rfl, roundBinary_zero 24 (-126) 127⟩

theorem impulse_exact :
    ∀ n, 2 ≤ n → n < [JSNum.fin 1, .fin 0, .fin 0, .fin 0].length + 2 →
      (echoLoop [.fin 1, .fin 0, .fin 0, .fin 0] (.fin (1 / 2)) 2 2)[n]? =
        some (.fin (([JSNum.fin 1, .fin 0, .fin 0, .fin 0].getD n (.fin 0)).toRat +
          1 / 2 * ((echoLoop [.fin 1, .fin 0, .fin 0, .fin 0] (.fin (1 / 2)) 2 2).getD
            (n - 2) .nan).toRat)) := by
  intro n h1 h2
  rw [echoLoop_scenario_half]
  simp only [List.length_cons, List.length_nil] at h2
  interval_cases n <;> simp [JSNum.toRat]
  norm_num

theorem pair_finite : ∀ v ∈ [JSNum.fin 1, .fin (1 / 2)], v.FiniteFloat32 := by
  intro v hv
  simp only [List.mem_cons, List.mem_singleton, List.not_mem_nil, or_false] at hv
  rcases hv with rfl | rfl
  · exact ⟨1, rfl, roundFloat32_one⟩
  · exact ⟨1 / 2, rfl, roundFloat32_half⟩

theorem normalize_of_le (y : List JSNum) (M : ℚ) (hM : maxAbs y = .fin M) (hM1 : M ≤ 1) :
    normalize y = y := by
  unfold normalize
  simp only
  rw [if_neg]
  rw [hM, jsLiteral_one]
  simp only [JSNum.gt, decide_eq_true_eq]
  exact not_lt.mpr hM1

theorem float32Array_ninety_eight : float32Array [0.98] = [.fin (2055209 / 2097152)] := by
  have h1 : (0.98 : ℚ) = 49 / 50 := by norm_num
  simp only [float32Array, List.map, jsLiteral, h1, roundDouble_ninety_eight, JSNum.fround,
    roundFloat32_ninety_eight]

/-! ## Waveform reduction: the window scan -/

theorem waveformScan_fold (data : List ℚ) (base : Nat) (js : List Nat) :
    ∀ mm : ℚ × ℚ,
      let r := js.foldl (waveformScan data base) mm
      (r.1 ≤ mm.1 ∧ (∀ j ∈ js, ∀ d, data[base + j]? = some d → r.1 ≤ d) ∧
        (r.1 = mm.1 ∨ ∃ j ∈ js, data[base + j]? = some r.1)) ∧
      (mm.2 ≤ r.2 ∧ (∀ j ∈ js, ∀ d, data[base + j]? = some d → d ≤ r.2) ∧
        (r.2 = mm.2 ∨ ∃ j ∈ js, data[base + j]? = some r.2)) := by
  induction js with
  | nil =>
    intro mm
    exact ⟨⟨le_refl _, fun j hj => (by cases hj), Or.inl rfl⟩,
      ⟨le_refl _, fun j hj => (by cases hj), Or.inl rfl⟩⟩
  | cons j0 t ih =>
    intro mm
    simp only [List.foldl_cons]
    obtain ⟨⟨a1, a2, a3⟩, ⟨b1, b2, b3⟩⟩ := ih (waveformScan data base mm j0)
    have hs1 : (waveformScan data base mm j0).1 ≤ mm.1 ∧
        (∀ d, data[base + j0]? = some d → (waveformScan data base mm j0).1 ≤ d) ∧
        ((waveformScan data base mm j0).1 = mm.1 ∨
          data[base + j0]? = some (waveformScan data base mm j0).1) := by
      unfold waveformScan
      cases h : data[base + j0]? with
      | none => exact ⟨le_refl _, fun d hd => (by cases hd), Or.inl rfl⟩
      | some datum =>
        simp only
        by_cases hlt : datum < mm.1
        · rw [if_pos hlt]
          exact ⟨le_of_lt hlt, fun d hd => (by cases hd; exact le_refl _), Or.inr rfl⟩
        · rw [if_neg hlt]
          exact ⟨le_refl _, fun d hd => (by cases hd; exact not_lt.mp hlt), Or.inl rfl⟩
    have hs2 : mm.2 ≤ (waveformScan data base mm j0).2 ∧
        (∀ d, data[base + j0]? = some d → d ≤ (waveformScan data base mm j0).2) ∧
        ((waveformScan data base mm j0).2 = mm.2 ∨
          data[base + j0]? = some (waveformScan data base mm j0).2) := by
      unfold waveformScan
      cases h : data[base + j0]? with
      | none => exact ⟨le_refl _, fun d hd => (by cases hd), Or.inl rfl⟩
      | some datum =>
        simp only
        by_cases hlt : datum > mm.2
        · rw [if_pos hlt]
          exact ⟨le_of_lt hlt, fun d hd => (by cases hd; exact le_refl _), Or.inr rfl⟩
        · rw [if_neg hlt]
          exact ⟨le_refl _, fun d hd => (by cases hd; exact not_lt.mp hlt), Or.inl rfl⟩
    refine ⟨⟨le_trans a1 hs1.1, ?_, ?_⟩, ⟨le_trans hs2.1 b1, ?_, ?_⟩⟩
    · intro j hj d hd
      rcases List.mem_cons.mp hj with h | h
      · subst h; exact le_trans a1 (hs1.2.1 d hd)
      · exact a2 j h d hd
    · rcases a3 with h | ⟨j, hj, h⟩
      · rcases hs1.2.2 with h' | h'
        · left; rw [h, h']
        · right; exact ⟨j0, List.mem_cons_self _ _, by rw [h]; exact h'⟩
      · right; exact ⟨j, List.mem_cons_of_mem _ hj, h⟩
    · intro j hj d hd
      rcases List.mem_cons.mp hj with h | h
      · subst h; exact le_trans (hs2.2.1 d hd) b1
      · exact b2 j h d hd
    · rcases b3 with h | ⟨j, hj, h⟩
      · rcases hs2.2.2 with h' | h'
        · left; rw [h, h']
        · right; exact ⟨j0, List.mem_cons_self _ _, by rw [h]; exact h'⟩
      · right; exact ⟨j, List.mem_cons_of_mem _ hj, h⟩

theorem waveformScan_fold_none (data : List ℚ) (base : Nat) (js : List Nat) (mm : ℚ × ℚ)
    (h : ∀ j ∈ js, data[base + j]? = none) : js.foldl (waveformScan data base) mm = mm := by
  induction js with
  | nil => rfl
  | cons j0 t ih =>
    simp only [List.foldl_cons]
    have : waveformScan data base mm j0 = mm := by
      unfold waveformScan
      rw [h j0 (List.mem_cons_self _ _)]
    rw [this]
    exact ih (fun j hj => h j (List.mem_cons_of_mem _ hj))

theorem ceil_div_toNat (L W : Nat) (hW : 0 < W) :
    ⌈(L : ℚ) / (W : ℚ)⌉.toNat = (L + W - 1) / W := by
  have hWq : (0 : ℚ) < (W : ℚ) := by exact_mod_cast hW
  have h1 : (L + W - 1) / W * W ≤ L + W - 1 := Nat.div_mul_le_self _ _
  have h2 : L + W - 1 < ((L + W - 1) / W + 1) * W := by
    have := Nat.lt_succ_iff.mpr (Nat.le_refl ((L + W - 1) / W))
    exact (Nat.div_lt_iff_lt_mul hW).mp this
  generalize (L + W - 1) / W = z at h1 h2
  have hc : ⌈(L : ℚ) / (W : ℚ)⌉ = (z : ℤ) := by
    rw [Int.ceil_eq_iff]
    constructor
    · rw [lt_div_iff₀ hWq]
      have : z * W < L + W := by omega
      have hq : ((z * W : ℕ) : ℚ) < ((L + W : ℕ) : ℚ) := by exact_mod_cast this
      push_cast at hq ⊢
      linarith
    · rw [div_le_iff₀ hWq]
      have : L ≤ z * W := by
        rw [Nat.add_mul] at h2; omega
      have hq : ((L : ℕ) : ℚ) ≤ ((z * W : ℕ) : ℚ) := by exact_mod_cast this
      push_cast at hq ⊢
      linarith
  rw [hc]
  simp

/-! ## PCM encoder: header and sample loop -/

theorem bufferToWave_header (fs : Int) (samples : List ℚ)
    (h0 : 0 ≤ fs) (h1 : 2 * fs < 2 ^ 32) (h2 : 44 + 2 * samples.length < 2 ^ 32) :
    bufferToWave ⟨fs, samples⟩ =
      match writeSamples samples
          (waveHeader fs samples.length ++ List.replicate (2 * samples.length) 0) 44 with
      | none => none
      | some (view, _) => some view := by
  have hrep : List.replicate (samples.length * 1 * 2 + 44) (0 : Nat)
      = List.replicate 44 0 ++ List.replicate (2 * samples.length) 0 := by
    rw [← List.replicate_add]; congr 1; omega
  have e1 : (((samples.length : Int) * 2 + 44 - 8) % 4294967296).toNat
      = 36 + 2 * samples.length := by omega
  have e2 : (((samples.length : Int) * 2 + 44 - 40 - 4) % 4294967296).toNat
      = 2 * samples.length := by omega
  have e3 : fs % 4294967296 = fs := by omega
  have e4 : (fs * 2) % 4294967296 = 2 * fs := by omega
  have l1 : "RIFF".length = 4 := rfl
  have l2 : "WAVE".length = 4 := rfl
  have l3 : "fmt ".length = 4 := rfl
  have l4 : "data".length = 4 := rfl
  unfold bufferToWave
  simp only [AudioBuffer.length, hrep]
  simp [writeString, setUint8, setUint16, setUint32, List.replicate, List.range_succ,
    List.foldlM, e1, e2, e3, e4, l1, l2, l3, l4, waveHeader, asciiBytes, le16, le32]


theorem truncate_encodeSample_bounds (c : ℚ) :
    -32768 ≤ truncate (encodeSample c) ∧ truncate (encodeSample c) ≤ 32767 := by
  have hlo : (-1 : ℚ) ≤ max (-1) (min 1 c) := le_max_left _ _
  have hhi : max (-1) (min 1 c) ≤ (1 : ℚ) := max_le (by norm_num) (min_le_left _ _)
  unfold encodeSample truncate
  simp only
  generalize max (-1) (min 1 c) = s at hlo hhi
  by_cases hs : s < 0
  · rw [if_pos hs]
    have hneg : ¬ (0 : ℚ) ≤ s * 0x8000 := by
      push_neg; nlinarith
    rw [if_neg hneg]
    constructor
    · have : ((-32768 : ℤ) : ℚ) ≤ s * 0x8000 := by push_cast; nlinarith
      exact Int.cast_le.mp (le_trans this (Int.le_ceil _))
    · apply le_trans (Int.ceil_le.mpr (_ : s * 0x8000 ≤ ((0 : ℤ) : ℚ)))
      · norm_num
      · push_cast; nlinarith
  · rw [if_neg hs]
    have hs0 : 0 ≤ s := not_lt.mp hs
    have hnn : (0 : ℚ) ≤ s * 0x7FFF := by nlinarith
    rw [if_pos hnn]
    constructor
    · exact le_trans (by norm_num) (Int.floor_nonneg.mpr hnn)
    · have : s * 0x7FFF ≤ ((32767 : ℤ) : ℚ) := by push_cast; nlinarith
      exact Int.cast_le.mp (le_trans (Int.floor_le _) this)

theorem toInt16_encodeSample (c : ℚ) : toInt16 (encodeSample c) = truncate (encodeSample c) := by
  obtain ⟨h1, h2⟩ := truncate_encodeSample_bounds c
  unfold toInt16
  simp only
  split <;> omega

theorem pcmQuantize_eq (c : ℚ) : pcmQuantize c = truncate (encodeSample c) := by
  unfold pcmQuantize encodeSample
  simp only
  split <;> norm_num

theorem setInt16_bytes (c : ℚ) :
    (toInt16 (encodeSample c) % 65536).toNat = twosComplement16 (pcmQuantize c) := by
  obtain ⟨h1, h2⟩ := truncate_encodeSample_bounds c
  rw [toInt16_encodeSample, pcmQuantize_eq]
  unfold twosComplement16
  split <;> omega

theorem writeSamples_append (samples : List ℚ) :
    ∀ pre : List Nat,
      writeSamples samples (pre ++ List.replicate (2 * samples.length) 0) pre.length =
        some (pre ++ waveData samples, pre.length + 2 * samples.length) := by
  induction samples with
  | nil => intro pre; simp [writeSamples, waveData]
  | cons c t ih =>
    intro pre
    have hrep : List.replicate (2 * (c :: t).length) (0 : Nat)
        = 0 :: 0 :: List.replicate (2 * t.length) 0 := by
      have : 2 * (c :: t).length = 2 * t.length + 1 + 1 := by simp; omega
      rw [this]; rfl
    have hstep : setInt16 (pre ++ 0 :: 0 :: List.replicate (2 * t.length) 0) pre.length
        (encodeSample c) = some ((pre ++ le16 (twosComplement16 (pcmQuantize c))) ++
          List.replicate (2 * t.length) 0) := by
      unfold setInt16
      rw [if_pos (by simp)]
      simp only [setInt16_bytes, le16]
      simp
    have := ih (pre ++ le16 (twosComplement16 (pcmQuantize c)))
    unfold writeSamples at this ⊢
    rw [hrep, List.foldlM_cons]
    simp only [hstep]
    have hlen : (pre ++ le16 (twosComplement16 (pcmQuantize c))).length = pre.length + 2 := by
      simp [le16]
    rw [hlen] at this
    show List.foldlM _ _ t = _
    rw [this]
    simp [waveData, List.flatMap_cons]
    omega


theorem waveHeader_length (fs : Int) (N : Nat) : (waveHeader fs N).length = 44 := by
  simp [waveHeader, asciiBytes, le16, le32]

theorem waveData_length (samples : List ℚ) : (waveData samples).length = 2 * samples.length := by
  induction samples with
  | nil => rfl
  | cons c t ih =>
    simp only [waveData, List.flatMap_cons, List.length_append, List.length_cons] at ih ⊢
    rw [ih]; simp [le16]; omega

theorem waveData_slice (samples : List ℚ) :
    ∀ i (hi : i < samples.length),
      slice (waveData samples) (2 * i) 2 = le16 (twosComplement16 (pcmQuantize samples[i])) := by
  induction samples with
  | nil => intro i hi; simp at hi
  | cons c t ih =>
    intro i hi
    cases i with
    | zero => simp [slice, waveData, List.flatMap_cons, le16]
    | succ i =>
      have hi2 : i < t.length := by simpa using hi
      have := ih i hi2
      have h2 : 2 * (i + 1) = 2 * i + 1 + 1 := by omega
      simp only [slice, waveData, List.flatMap_cons, le16, h2] at this ⊢
      simpa using this

theorem bufferToWave_canonical (fs : Int) (samples : List ℚ)
    (h0 : 0 ≤ fs) (h1 : 2 * fs < 2 ^ 32) (h2 : 44 + 2 * samples.length < 2 ^ 32) :
    bufferToWave ⟨fs, samples⟩ = some (waveHeader fs samples.length ++ waveData samples) := by
  rw [bufferToWave_header fs samples h0 h1 h2]
  have := writeSamples_append samples (waveHeader fs samples.length)
  rw [waveHeader_length] at this
  rw [this]

theorem truncate_intCast (z : Int) : truncate (z : ℚ) = z := by
  unfold truncate
  split <;> simp

theorem pcmQuantize_one : pcmQuantize 1 = 32767 := by
  unfold pcmQuantize
  norm_num
  exact_mod_cast truncate_intCast _

theorem pcmQuantize_neg_one : pcmQuantize (-1) = -32768 := by
  unfold pcmQuantize
  norm_num
  exact_mod_cast truncate_intCast _

theorem pcmQuantize_zero : pcmQuantize 0 = 0 := by
  unfold pcmQuantize
  norm_num
  exact_mod_cast truncate_intCast _

theorem wave_of_scenario :
    bufferToWave ⟨44100, [1, -1, 0]⟩ = some
      [0x52, 0x49, 0x46, 0x46, 42, 0, 0, 0, 0x57, 0x41, 0x56, 0x45, 0x66, 0x6D, 0x74, 0x20,
       16, 0, 0, 0, 1, 0, 1, 0, 0x44, 0xAC, 0, 0, 0x88, 0x58, 1, 0, 2, 0, 16, 0,
       0x64, 0x61, 0x74, 0x61, 6, 0, 0, 0, 0xFF, 0x7F, 0x00, 0x80, 0x00, 0x00] := by
  rw [bufferToWave_canonical 44100 [1, -1, 0] (by norm_num) (by norm_num) (by simp)]
  simp [waveHeader, waveData, asciiBytes, le16, le32, twosComplement16, pcmQuantize_one,
    pcmQuantize_neg_one, pcmQuantize_zero]

theorem toInt16_nine_tenths : toInt16 (encodeSample (9 / 10)) = 29490 := by
  rw [toInt16_encodeSample]
  have h : encodeSample (9 / 10) = 294903 / 10 := by
    unfold encodeSample
    norm_num
  rw [h]
  unfold truncate
  rw [if_pos (by norm_num), Int.floor_eq_iff]
  norm_num

/-! ## Claims -/

/-- Counterexample to C1 as stated: for `x = [1, 0]`, `alpha = 0.3` (the double of that
literal), `nd = 1`, `tail = 0` the stored `y[1]` is the float32 `5033165 / 16777216`
(0.30000001192092896), not the exact value `x[1] + alpha * y[0]`. -/
theorem echoLoop_exact_recurrence_refuted :
    ¬ (∀ n, 1 ≤ n → n < 2 →
      (echoLoop [.fin 1, .fin 0] (jsLiteral 0.3) 1 0)[n]? =
        some (.fin (([JSNum.fin 1, .fin 0].getD n (.fin 0)).toRat + (jsLiteral 0.3).toRat *
          ((echoLoop [.fin 1, .fin 0] (jsLiteral 0.3) 1 0).getD (n - 1) .nan).toRat))) := by
  intro h
  have h1 := h 1 (le_refl 1) (by decide)
  rw [echoLoop_three_tenths, jsLiteral_three_tenths] at h1
  simp [JSNum.toRat] at h1
  norm_num at h1

/-- Claim C1, amended: for float32 input samples and a delay `nd ≥ 1` the echo loop returns an
array of length `N + tail` with `y[n] = x[n]` for `n < nd` and
`y[n] = float32(x[n] + alpha * y[n - nd])` for `nd ≤ n < N + tail`, the product and the sum
being double operations and `float32` the rounding of the `Float32Array` store, `x[n]` read as
`0` past the input; on `x = [1, 0, 0, 0]`, `alpha = 0.5`, `nd = 2`, `tail = 2` it returns
`[1, 0, 0.5, 0, 0.25, 0]`. -/
theorem echoLoop_recurrence (x : List JSNum) (alpha : JSNum) (nd tail : Nat) (hnd : 1 ≤ nd)
    (hx : ∀ v ∈ x, v.fround = v) :
    (echoLoop x alpha nd tail).length = x.length + tail ∧
    (∀ n, n < nd → n < x.length + tail →
      (echoLoop x alpha nd tail)[n]? = some (x.getD n (.fin 0))) ∧
    (∀ n, nd ≤ n → n < x.length + tail →
      (echoLoop x alpha nd tail)[n]? =
        some (((x.getD n (.fin 0)).add
          (alpha.mul ((echoLoop x alpha nd tail).getD (n - nd) .nan))).fround)) ∧
    echoLoop [.fin 1, .fin 0, .fin 0, .fin 0] (jsLiteral 0.5) 2 2
      = [.fin 1, .fin 0, .fin 0.5, .fin 0, .fin 0.25, .fin 0] := by
  refine ⟨?_, ?_, ?_, echoLoop_scenario⟩
  · rw [echoLoop_eq_echoRun]; exact echoRun_length _ _ _ _ _
  · intro n h1 h2
    rw [echoLoop_eq_echoRun, echoRun_final _ _ _ _ _ h2, if_pos h1, getD_fround x hx]
  · intro n h1 h2
    rw [echoLoop_eq_echoRun]
    exact echoRun_rec _ _ _ _ _ hnd h2 h1

/-- Witness for C1 at `x = [1, 0, 0, 0]`, `alpha = 0.5`, `nd = 2`, `tail = 2`. -/
theorem echoLoop_recurrence_witness :
    1 ≤ 2 ∧ (∀ v ∈ [JSNum.fin 1, .fin 0, .fin 0, .fin 0], v.fround = v) ∧
    (echoLoop [.fin 1, .fin 0, .fin 0, .fin 0] (jsLiteral 0.5) 2 2).length
      = [JSNum.fin 1, .fin 0, .fin 0, .fin 0].length + 2 :=
  have hx : ∀ v ∈ [JSNum.fin 1, .fin 0, .fin 0, .fin 0], v.fround = v := by
    intro v hv
    simp only [List.mem_cons, List.mem_singleton, List.not_mem_nil, or_false] at hv
    rcases hv with rfl | rfl | rfl | rfl
    · exact roundFloat32_one
    · exact fround_zero
    · exact fround_zero
    · exact fround_zero
  ⟨by decide, hx,
   (echoLoop_recurrence [.fin 1, .fin 0, .fin 0, .fin 0] (jsLiteral 0.5) 2 2 (by decide) hx).1⟩

/-- Claim C2: with `alpha = 0` the echo loop returns the input (finite float32 samples)
followed by `tail` zeros, for every delay `nd ≥ 0`. -/
theorem echoLoop_alpha_zero (x : List JSNum) (nd tail : Nat)
    (hx : ∀ v ∈ x, v.FiniteFloat32) :
    echoLoop x (.fin 0) nd tail = x ++ List.replicate tail (.fin 0) := by
  apply echoLoop_eq_padded
  intro n
  induction n using Nat.strong_induction_on with
  | _ n ih =>
    intro hn
    have hxf : ∀ v ∈ x, v.fround = v := fun v hv => FiniteFloat32.fround_eq v (hx v hv)
    rw [echoRun_final _ _ _ _ _ hn]
    by_cases hlt : n < nd
    · rw [if_pos hlt, getD_fround x hxf]
    · rw [if_neg hlt]
      have hprev : ∃ b : ℚ, (echoRun x (.fin 0) nd (x.length + tail) n).getD (n - nd) .nan
          = .fin b := by
        rw [List.getD_eq_getElem?_getD]
        by_cases h0 : nd = 0
        · subst h0
          rw [echoRun_untouched _ _ _ _ _ _ (by omega) (by omega)]
          exact ⟨0, rfl⟩
        · have e1 := echoRun_stable x (.fin 0) nd (x.length + tail) (n - nd) n (by omega)
          have e2 := echoRun_stable x (.fin 0) nd (x.length + tail) (n - nd) (x.length + tail)
            (by omega)
          rw [e1, ← e2, ih (n - nd) (by omega) (by omega)]
          obtain ⟨b, hb, _⟩ := getD_finite x hx (n - nd)
          exact ⟨b, by rw [hb]; rfl⟩
      obtain ⟨b, hb⟩ := hprev
      rw [hb]
      have hmul : (JSNum.fin 0).mul (.fin b) = .fin 0 := by
        show roundDouble (0 * b) = .fin 0
        rw [zero_mul, roundDouble_zero]
      rw [hmul, add_zero_of_float32 _ (getD_fround x hxf n)]

/-- Witness for C2 at `x = [1, 0.5]`, `nd = 1`, `tail = 1`. -/
theorem echoLoop_alpha_zero_witness :
    (∀ v ∈ [JSNum.fin 1, .fin (1 / 2)], v.FiniteFloat32) ∧
    echoLoop [.fin 1, .fin (1 / 2)] (.fin 0) 1 1
      = [.fin 1, .fin (1 / 2)] ++ List.replicate 1 (.fin 0) :=
  ⟨pair_finite, echoLoop_alpha_zero [.fin 1, .fin (1 / 2)] 1 1 pair_finite⟩

/-- Counterexample to C3 as stated: on the stored buffer `[0.2, -1.5, 1.2]` the result is not
the buffer multiplied by `0.95 / peak`, and its peak is not `0.95`. -/
theorem normalize_exact_scaling_refuted :
    normalize (float32Array [0.2, -1.5, 1.2]) ≠
      (float32Array [0.2, -1.5, 1.2]).map
        (fun v => .fin (v.toRat * (0.95 / (maxAbs (float32Array [0.2, -1.5, 1.2])).toRat))) ∧
    maxAbs (normalize (float32Array [0.2, -1.5, 1.2])) ≠ .fin 0.95 := by
  constructor
  · rw [normalize_loud, maxAbs_loud, float32Array_loud]
    simp [JSNum.toRat]
    norm_num
  · rw [maxAbs_normalize_loud]
    intro h
    have := JSNum.fin.inj h
    norm_num at this

/-- Claim C3, amended: `maxAbs` is the peak `max |sample|`; the normalisation step leaves a
buffer of peak at most `1.0` unchanged and, when the peak exceeds `1.0`, overwrites every
sample `s` with `float32((s / peak) * 0.95)`, quotient and product being double operations;
the peak of the result is at most `1.0` and at most the peak of the input. The stored
`[0.2, -0.3, 0.1]` is unchanged and the stored `[0.2, -1.5, 1.2]` becomes
`[0.12666666507720947, -0.949999988079071, 0.7600000500679016]`, of peak
`15938355 / 16777216` (0.949999988079071). -/
theorem normalize_attenuates (y : List JSNum) :
    (∀ M, maxAbs y = .fin M → ∀ v ∈ y, v = .nan ∨ ∃ a : ℚ, v = .fin a ∧ |a| ≤ M) ∧
    (maxAbs y = .fin 0 ∨ ∃ v ∈ y, v.abs = maxAbs y) ∧
    (∀ M, maxAbs y = .fin M → M ≤ 1.0 → normalize y = y) ∧
    ((maxAbs y).gt (jsLiteral 1.0) = true →
      normalize y = y.map (fun v => ((v.div (maxAbs y)).mul (jsLiteral 0.95)).fround)) ∧
    (∃ m : ℚ, maxAbs (normalize y) = .fin m ∧ 0 ≤ m ∧ m ≤ 1.0 ∧
      (maxAbs y = .posInf ∨ ∃ M : ℚ, maxAbs y = .fin M ∧ m ≤ M)) ∧
    normalize (float32Array [0.2, -0.3, 0.1]) = float32Array [0.2, -0.3, 0.1] ∧
    normalize (float32Array [0.2, -1.5, 1.2]) =
      [.fin (1062557 / 8388608), .fin (-15938355 / 16777216), .fin (12750685 / 16777216)] ∧
    maxAbs (normalize (float32Array [0.2, -1.5, 1.2])) = .fin (15938355 / 16777216) := by
  have h1 : (1.0 : ℚ) = 1 := by norm_num
  obtain ⟨_, hb, hatt⟩ := scan_fold y 0 (le_refl 0)
  refine ⟨fun M hM => (hb M hM).2, hatt, ?_, ?_, ?_, ?_, normalize_loud, maxAbs_normalize_loud⟩
  · rw [h1]; exact normalize_of_le y
  · intro hgt
    unfold normalize
    simp only
    rw [if_pos hgt]
  · rw [h1]; exact maxAbs_normalize y
  · exact normalize_of_le _ _ maxAbs_quiet (by norm_num)

/-- Witness for C3 at the stored buffer `[0.2, -1.5, 1.2]`. -/
theorem normalize_attenuates_witness :
    ∃ m : ℚ, maxAbs (normalize (float32Array [0.2, -1.5, 1.2])) = .fin m ∧ 0 ≤ m ∧ m ≤ 1.0 ∧
      (maxAbs (float32Array [0.2, -1.5, 1.2]) = .posInf ∨
        ∃ M : ℚ, maxAbs (float32Array [0.2, -1.5, 1.2]) = .fin M ∧ m ≤ M) :=
  (normalize_attenuates (float32Array [0.2, -1.5, 1.2])).2.2.2.2.1

/-- Counterexample to C4 as stated: the stored buffer `[0.98]` is returned unchanged, so after
one pass its peak `2055209 / 2097152` (0.9800000190734863) is above the target `0.95`. -/
theorem normalize_peak_exceeds_target :
    normalize (float32Array [0.98]) = float32Array [0.98] ∧
    maxAbs (normalize (float32Array [0.98])) = .fin (2055209 / 2097152) ∧
    ¬ ((2055209 / 2097152 : ℚ) ≤ 0.95) := by
  have hmax : maxAbs (float32Array [0.98]) = .fin (2055209 / 2097152) := by
    rw [float32Array_ninety_eight]
    simp only [maxAbs, List.foldl, scan_fin]
    norm_num [abs_of_pos]
  have hn : normalize (float32Array [0.98]) = float32Array [0.98] :=
    normalize_of_le _ _ hmax (by norm_num)
  refine ⟨hn, by rw [hn, hmax], by norm_num⟩

/-- Claim C4, amended: the normalisation step is idempotent, because after one pass the peak
is at most the threshold `1.0` and the second pass returns its input unchanged. -/
theorem normalize_idempotent (y : List JSNum) :
    normalize (normalize y) = normalize y ∧
    ∃ m : ℚ, maxAbs (normalize y) = .fin m ∧ m ≤ 1.0 := by
  have h1 : (1.0 : ℚ) = 1 := by norm_num
  obtain ⟨m, hm, _, hm1, _⟩ := maxAbs_normalize y
  exact ⟨normalize_of_le _ m hm hm1, m, hm, by rw [h1]; exact hm1⟩

/-- Counterexample to C9 as stated: for the unit impulse `x = [1, 0]`, `alpha = 0.3`, `nd = 1`
the stored `y[1]` is the float32 `5033165 / 16777216`, not `alpha ^ 1`. -/
theorem echoLoop_closed_form_refuted :
    ¬ (∀ n, n < 2 →
      (echoLoop [.fin 1, .fin 0] (jsLiteral 0.3) 1 0)[n]? =
        some (.fin (∑ k in Finset.range (n / 1 + 1), (jsLiteral 0.3).toRat ^ k *
          ([JSNum.fin 1, .fin 0].getD (n - k * 1) (.fin 0)).toRat))) := by
  intro h
  have h1 := h 1 (by decide)
  rw [echoLoop_three_tenths, jsLiteral_three_tenths] at h1
  simp [JSNum.toRat, Finset.sum_range_succ] at h1
  norm_num at h1

/-- Claim C9, amended: for finite float32 input, finite `alpha` and `nd ≥ 1`, whenever no store
of the echo loop rounds (each stored `y[n]`, `nd ≤ n < N + tail`, is the exact value
`x[n] + alpha * y[n - nd]`), every output sample is the sum of the scaled copies of the input
spaced `nd` apart, `y[n] = Σ k ≤ n / nd, alpha ^ k * x[n - k * nd]`, and for the unit impulse
`y[k * nd] = alpha ^ k`; for the unit impulse `y[n] = 0` whenever `nd` does not divide `n`,
with or without rounding. -/
theorem echoLoop_closed_form (x : List JSNum) (alpha : ℚ) (nd tail : Nat) (hnd : 1 ≤ nd)
    (hx : ∀ v ∈ x, v.FiniteFloat32) :
    ((∀ n, nd ≤ n → n < x.length + tail →
        (echoLoop x (.fin alpha) nd tail)[n]? =
          some (.fin ((x.getD n (.fin 0)).toRat +
            alpha * ((echoLoop x (.fin alpha) nd tail).getD (n - nd) .nan).toRat))) →
      (∀ n, n < x.length + tail →
        (echoLoop x (.fin alpha) nd tail)[n]? =
          some (.fin (∑ k in Finset.range (n / nd + 1),
            alpha ^ k * (x.getD (n - k * nd) (.fin 0)).toRat))) ∧
      (∀ m, x = .fin 1 :: List.replicate m (.fin 0) →
        ∀ k, k * nd < x.length + tail →
          (echoLoop x (.fin alpha) nd tail)[k * nd]? = some (.fin (alpha ^ k)))) ∧
    (∀ m, x = .fin 1 :: List.replicate m (.fin 0) →
      ∀ n, n < x.length + tail → ¬ nd ∣ n →
        (echoLoop x (.fin alpha) nd tail)[n]? = some (.fin 0)) := by
  have hxf : ∀ v ∈ x, v.fround = v := fun v hv => FiniteFloat32.fround_eq v (hx v hv)
  constructor
  · intro hexact
    have hclosed : ∀ n, n < x.length + tail →
        (echoLoop x (.fin alpha) nd tail)[n]? =
          some (.fin (∑ k in Finset.range (n / nd + 1),
            alpha ^ k * (x.getD (n - k * nd) (.fin 0)).toRat)) := by
      intro n
      induction n using Nat.strong_induction_on with
      | _ n ih =>
        intro hn
        by_cases hlt : n < nd
        · rw [echoLoop_eq_echoRun, echoRun_final _ _ _ _ _ hn, if_pos hlt, getD_fround x hxf,
            Nat.div_eq_of_lt hlt]
          simp only [zero_add, Finset.sum_range_one, pow_zero, Nat.zero_mul, Nat.sub_zero, one_mul]
          rw [← toRat_getD_finite x hx n]
        · have hge : nd ≤ n := Nat.le_of_not_lt hlt
          have hdiv : n / nd = (n - nd) / nd + 1 := Nat.div_eq_sub_div (by omega) hge
          have hg : (echoLoop x (.fin alpha) nd tail).getD (n - nd) .nan
              = .fin (∑ k in Finset.range ((n - nd) / nd + 1),
                  alpha ^ k * (x.getD (n - nd - k * nd) (.fin 0)).toRat) := by
            rw [List.getD_eq_getElem?_getD, ih (n - nd) (by omega) (by omega)]
            rfl
          rw [hexact n hge hn, hg]
          simp only [JSNum.toRat]
          rw [hdiv, Finset.sum_range_succ' _ ((n - nd) / nd + 1), Finset.mul_sum]
          simp only [pow_zero, Nat.zero_mul, Nat.sub_zero, one_mul]
          rw [add_comm]
          congr 3
          apply Finset.sum_congr rfl
          intro k _
          have hidx : n - nd - k * nd = n - (k + 1) * nd := by
            rw [Nat.add_mul, Nat.one_mul, Nat.sub_sub, Nat.add_comm]
          rw [hidx, pow_succ]
          ring
    refine ⟨hclosed, ?_⟩
    intro m hxm k hk
    rw [hclosed _ hk]
    congr 2
    rw [Nat.mul_div_cancel _ (by omega : 0 < nd), Finset.sum_eq_single k]
    · rw [Nat.sub_self, hxm, impulse_getD]; simp [JSNum.toRat]
    · intro b hb hbk
      have hb2 : b < k := by
        have := Finset.mem_range.mp hb
        omega
      have : k * nd - b * nd ≠ 0 := by
        have : b * nd < k * nd := Nat.mul_lt_mul_of_pos_right hb2 (by omega)
        omega
      rw [hxm, impulse_getD, if_neg this]
      simp [JSNum.toRat]
    · intro h
      exact absurd (Finset.mem_range.mpr (Nat.lt_succ_self k)) h
  · intro m hxm n
    induction n using Nat.strong_induction_on with
    | _ n ih =>
      intro hn hdvd
      have hn0 : n ≠ 0 := by
        intro h0
        exact hdvd (h0 ▸ Nat.dvd_zero nd)
      have hxn : x.getD n (.fin 0) = .fin 0 := by
        rw [hxm, impulse_getD, if_neg hn0]
      by_cases hlt : n < nd
      · rw [echoLoop_eq_echoRun, echoRun_final _ _ _ _ _ hn, if_pos hlt, hxn]
        exact congrArg some fround_zero
      · have hge : nd ≤ n := Nat.le_of_not_lt hlt
        have hprev : (echoLoop x (.fin alpha) nd tail)[n - nd]? = some (.fin 0) := by
          apply ih (n - nd) (by omega) (by omega)
          intro hd
          apply hdvd
          have := (Nat.dvd_add_right (Nat.dvd_refl nd)).mpr hd
          rwa [Nat.add_sub_cancel' hge] at this
        rw [echoLoop_eq_echoRun] at hprev ⊢
        have hg : (echoRun x (.fin alpha) nd (x.length + tail) (x.length + tail)).getD
            (n - nd) .nan = .fin 0 := by
          rw [List.getD_eq_getElem?_getD, hprev]
          rfl
        rw [echoRun_rec _ _ _ _ _ hnd hn hge, hg, hxn, mul_fin_zero,
          add_zero_of_float32 _ fround_zero]

/-- Witness for C9 at the unit impulse `[1, 0, 0, 0]`, `alpha = 1/2`, `nd = 2`, `tail = 2`,
where no store rounds: sample 4 is `(1/2) ^ 2`. -/
theorem echoLoop_closed_form_witness :
    1 ≤ 2 ∧ (∀ v ∈ [JSNum.fin 1, .fin 0, .fin 0, .fin 0], v.FiniteFloat32) ∧
    (echoLoop [.fin 1, .fin 0, .fin 0, .fin 0] (.fin (1 / 2)) 2 2)[2 * 2]?
      = some (.fin ((1 / 2 : ℚ) ^ 2)) :=
  ⟨by decide, impulse_finite,
   (((echoLoop_closed_form [.fin 1, .fin 0, .fin 0, .fin 0] (1 / 2) 2 2 (by decide)
      impulse_finite).1 impulse_exact).2 3 rfl) 2 (by decide)⟩

/-- Claim C10: with `nd = 0` the guard `n < nd` is false at every index, the loop reads
`y[n]` before assigning it and reads zero, and the output is the input followed by `tail`
zeros, whatever the finite `alpha` is. -/
theorem echoLoop_delay_zero (x : List JSNum) (alpha : ℚ) (tail : Nat)
    (hx : ∀ v ∈ x, v.fround = v) :
    (∀ n, n < x.length + tail →
      ¬ n < 0 ∧ (echoRun x (.fin alpha) 0 (x.length + tail) n).getD (n - 0) .nan = .fin 0) ∧
    echoLoop x (.fin alpha) 0 tail = x ++ List.replicate tail (.fin 0) ∧
    (∀ n, n < x.length → (echoLoop x (.fin alpha) 0 tail)[n]? = x[n]?) ∧
    (∀ n, x.length ≤ n → n < x.length + tail →
      (echoLoop x (.fin alpha) 0 tail)[n]? = some (.fin 0)) := by
  have hrun : ∀ n, n < x.length + tail →
      (echoRun x (.fin alpha) 0 (x.length + tail) n).getD (n - 0) .nan = .fin 0 := by
    intro n hn
    rw [List.getD_eq_getElem?_getD, echoRun_untouched _ _ _ _ _ _ (by omega) (by omega)]
    rfl
  have heq : echoLoop x (.fin alpha) 0 tail = x ++ List.replicate tail (.fin 0) := by
    apply echoLoop_eq_padded
    intro n hn
    rw [echoRun_final _ _ _ _ _ hn, if_neg (by omega), hrun n hn, mul_fin_zero,
      add_zero_of_float32 _ (getD_fround x hx n)]
  refine ⟨fun n hn => ⟨by omega, hrun n hn⟩, heq, ?_, ?_⟩
  · intro n hn
    rw [heq, List.getElem?_append_left hn]
  · intro n h1 h2
    rw [heq, padded_getElem? x tail n h2, List.getD_eq_getElem?_getD, List.getElem?_eq_none h1]
    rfl

/-- Witness for C10 at `x = [1, 0.5]`, `alpha = 7`, `tail = 1`: sample 2 is `0`. -/
theorem echoLoop_delay_zero_witness :
    (∀ v ∈ [JSNum.fin 1, .fin (1 / 2)], v.fround = v) ∧
    (echoLoop [.fin 1, .fin (1 / 2)] (.fin 7) 0 1)[2]? = some (.fin 0) :=
  ⟨fun v hv => FiniteFloat32.fround_eq v (pair_finite v hv),
   (echoLoop_delay_zero [.fin 1, .fin (1 / 2)] 7 1
      (fun v hv => FiniteFloat32.fround_eq v (pair_finite v hv))).2.2.2 2 (by decide)
      (by decide)⟩

/-- Claim C5: for sample rate `fs` with `0 ≤ fs`, `2 * fs < 2^32` and `N` samples with
`44 + 2 * N < 2^32`, `bufferToWave` succeeds with exactly `44 + 2 * N` bytes: "RIFF" at 0,
little-endian uint32 `36 + 2 * N` at 4, "WAVE" at 8, "fmt " at 12, uint32 16 at 16, uint16 1
at 20, uint16 1 at 22, uint32 `fs` at 24, uint32 `2 * fs` at 28, uint16 2 at 32, uint16 16
at 34, "data" at 36, uint32 `2 * N` at 40, and at `44 + 2 * i` the little-endian
two's-complement 16-bit pattern of the clamped sample `i` scaled by 32768 when negative and
by 32767 otherwise, truncated. -/
theorem bufferToWave_layout (fs : Int) (samples : List ℚ)
    (h0 : 0 ≤ fs) (h1 : 2 * fs < 2 ^ 32) (h2 : 44 + 2 * samples.length < 2 ^ 32) :
    ∃ out, bufferToWave ⟨fs, samples⟩ = some out ∧
      out = waveHeader fs samples.length ++ waveData samples ∧
      out.length = 44 + 2 * samples.length ∧
      slice out 0 4 = asciiBytes "RIFF" ∧
      slice out 4 4 = le32 (36 + 2 * samples.length) ∧
      slice out 8 4 = asciiBytes "WAVE" ∧
      slice out 12 4 = asciiBytes "fmt " ∧
      slice out 16 4 = le32 16 ∧
      slice out 20 2 = le16 1 ∧
      slice out 22 2 = le16 1 ∧
      slice out 24 4 = le32 fs.toNat ∧
      slice out 28 4 = le32 (2 * fs).toNat ∧
      slice out 32 2 = le16 2 ∧
      slice out 34 2 = le16 16 ∧
      slice out 36 4 = asciiBytes "data" ∧
      slice out 40 4 = le32 (2 * samples.length) ∧
      ∀ i (hi : i < samples.length),
        slice out (44 + 2 * i) 2 = le16 (twosComplement16 (pcmQuantize samples[i])) := by
  refine ⟨_, bufferToWave_canonical fs samples h0 h1 h2, rfl, ?_, ?_⟩
  · rw [List.length_append, waveHeader_length, waveData_length]
  · have hdata : ∀ i (hi : i < samples.length),
        slice (waveHeader fs samples.length ++ waveData samples) (44 + 2 * i) 2
          = le16 (twosComplement16 (pcmQuantize samples[i])) := by
      intro i hi
      have := waveData_slice samples i hi
      unfold slice at this ⊢
      rw [List.drop_append_eq_append_drop, waveHeader_length,
        List.drop_eq_nil_of_le (by rw [waveHeader_length]; omega), List.nil_append,
        Nat.add_sub_cancel_left]
      exact this
    refine ⟨?_, ?_, ?_, ?_, ?_, ?_, ?_, ?_, ?_, ?_, ?_, ?_, ?_, hdata⟩ <;>
      simp [slice, waveHeader, asciiBytes, le16, le32]

/-- Witness for C5 at sample rate 8000 and samples `[1/2, -1/4]`. -/
theorem bufferToWave_layout_witness :
    (0 : Int) ≤ 8000 ∧ 2 * (8000 : Int) < 2 ^ 32 ∧
    44 + 2 * [(1 / 2 : ℚ), -1 / 4].length < 2 ^ 32 ∧
    ∃ out, bufferToWave ⟨8000, [1 / 2, -1 / 4]⟩ = some out ∧ out.length = 48 :=
  ⟨by decide, by decide, by decide,
   match bufferToWave_layout 8000 [1 / 2, -1 / 4] (by decide) (by decide) (by decide) with
   | ⟨out, h, _, hl, _⟩ => ⟨out, h, hl⟩⟩

/-- Counterexample to C6 as stated: for sample rate 44100 and samples `[1.0, -1.0, 0.0]` the
bytes at offsets 44 to 49 are not `7F FF 00 80 00 00`. -/
theorem scenario_claimed_bytes_refuted :
    ¬ ∃ out, bufferToWave ⟨44100, [1.0, -1.0, 0.0]⟩ = some out ∧
      slice out 44 6 = [0x7F, 0xFF, 0x00, 0x80, 0x00, 0x00] := by
  have h : ([1.0, -1.0, 0.0] : List ℚ) = [1, -1, 0] := by norm_num
  rw [h]
  rintro ⟨out, hout, hs⟩
  rw [wave_of_scenario] at hout
  cases hout
  simp [slice] at hs

/-- Claim C6, amended: for sample rate 44100 and samples `[1.0, -1.0, 0.0]` the bytes at
offsets 44 to 49 of the `bufferToWave` output are, in that order, `FF 7F 00 80 00 00`. -/
theorem scenario_bytes_little_endian :
    ∃ out, bufferToWave ⟨44100, [1.0, -1.0, 0.0]⟩ = some out ∧
      slice out 44 6 = [0xFF, 0x7F, 0x00, 0x80, 0x00, 0x00] := by
  have h : ([1.0, -1.0, 0.0] : List ℚ) = [1, -1, 0] := by norm_num
  rw [h]
  exact ⟨_, wave_of_scenario, by simp [slice]⟩

/-- Counterexample to C7 as stated: the sample `0.9` lies in `[-1, 1]`, is written as
`29490`, and `29490 / 32768` differs from `0.9` by more than `1 / 32768`. -/
theorem pcm_one_step_bound_refuted :
    (-1 : ℚ) ≤ 9 / 10 ∧ (9 / 10 : ℚ) ≤ 1 ∧
    ¬ |((toInt16 (encodeSample (9 / 10)) : ℤ) : ℚ) / 32768 - 9 / 10| ≤ 1 / 32768 := by
  rw [toInt16_nine_tenths]
  refine ⟨by norm_num, by norm_num, ?_⟩
  rw [abs_le]
  norm_num

/-- Claim C7, amended: for `-1 ≤ s ≤ 1`, decoding the signed 16-bit integer `q` written for
`s` as `q / 32768` reproduces `s` within two quantization steps, `|q / 32768 - s| < 2 / 32768`,
and within one step, `|q / 32768 - s| ≤ 1 / 32768`, when `s ≤ 0`. -/
theorem pcm_round_trip_two_steps (s : ℚ) (hlo : -1 ≤ s) (hhi : s ≤ 1) :
    |((toInt16 (encodeSample s) : ℤ) : ℚ) / 32768 - s| < 2 / 32768 ∧
    (s ≤ 0 → |((toInt16 (encodeSample s) : ℤ) : ℚ) / 32768 - s| ≤ 1 / 32768) := by
  rw [toInt16_encodeSample]
  have hclamp : max (-1) (min 1 s) = s := by
    rw [min_eq_right hhi, max_eq_right hlo]
  have henc : encodeSample s = if s < 0 then s * 0x8000 else s * 0x7FFF := by
    unfold encodeSample
    simp only [hclamp]
  rw [henc]
  by_cases hs : s < 0
  · rw [if_pos hs]
    have hneg : ¬ (0 : ℚ) ≤ s * 0x8000 := by push_neg; nlinarith
    unfold truncate
    rw [if_neg hneg]
    have c1 := Int.le_ceil (s * 0x8000)
    have c2 := Int.ceil_lt_add_one (s * 0x8000)
    have key : |((⌈s * 0x8000⌉ : ℤ) : ℚ) / 32768 - s| ≤ 1 / 32768 := by
      rw [abs_le]
      constructor <;> linarith
    exact ⟨lt_of_le_of_lt key (by norm_num), fun _ => key⟩
  · rw [if_neg hs]
    have hs0 : 0 ≤ s := not_lt.mp hs
    have hnn : (0 : ℚ) ≤ s * 0x7FFF := by nlinarith
    unfold truncate
    rw [if_pos hnn]
    have f1 := Int.floor_le (s * 0x7FFF)
    have f2 := Int.lt_floor_add_one (s * 0x7FFF)
    constructor
    · rw [abs_lt]
      constructor <;> linarith
    · intro h0
      have hz : s = 0 := le_antisymm h0 hs0
      subst hz
      norm_num

/-- Witness for C7 at the sample `-1/2`. -/
theorem pcm_round_trip_two_steps_witness :
    (-1 : ℚ) ≤ -1 / 2 ∧ (-1 / 2 : ℚ) ≤ 1 ∧ (-1 / 2 : ℚ) ≤ 0 ∧
    |((toInt16 (encodeSample (-1 / 2)) : ℤ) : ℚ) / 32768 - (-1 / 2)| ≤ 1 / 32768 :=
  ⟨by norm_num, by norm_num, by norm_num,
   (pcm_round_trip_two_steps (-1 / 2) (by norm_num) (by norm_num)).2 (by norm_num)⟩

/-- Claim C8: for a positive width `W` and `step = ceil(L / W)`, the reduction loop of
`drawWaveform` returns exactly `W` pairs, and the pair of column `i` is the least of `1.0`
and the samples at the in-range indices `i*step ≤ k < i*step + step`, and the greatest of
`-1.0` and those samples; a window with no in-range index gives exactly `(1.0, -1.0)`. -/
theorem drawWaveform_columns (data : List ℚ) (width : Nat) (hW : 0 < width) :
    waveformStep data.length width = (data.length + width - 1) / width ∧
    (drawWaveform data width).length = width ∧
    ∀ i, i < width → ∃ mn mx : ℚ,
      (drawWaveform data width)[i]? = some (mn, mx) ∧
      (mn ≤ 1.0 ∧
        (∀ k, i * waveformStep data.length width ≤ k →
          k < i * waveformStep data.length width + waveformStep data.length width →
          ∀ d, data[k]? = some d → mn ≤ d) ∧
        (mn = 1.0 ∨ ∃ k, i * waveformStep data.length width ≤ k ∧
          k < i * waveformStep data.length width + waveformStep data.length width ∧
          data[k]? = some mn)) ∧
      (-1.0 ≤ mx ∧
        (∀ k, i * waveformStep data.length width ≤ k →
          k < i * waveformStep data.length width + waveformStep data.length width →
          ∀ d, data[k]? = some d → d ≤ mx) ∧
        (mx = -1.0 ∨ ∃ k, i * waveformStep data.length width ≤ k ∧
          k < i * waveformStep data.length width + waveformStep data.length width ∧
          data[k]? = some mx)) ∧
      ((∀ k, i * waveformStep data.length width ≤ k →
          k < i * waveformStep data.length width + waveformStep data.length width →
          data.length ≤ k) →
        (mn, mx) = (1.0, -1.0)) := by
  refine ⟨ceil_div_toNat data.length width hW, by simp [drawWaveform], ?_⟩
  generalize hstep : waveformStep data.length width = step
  intro i hi
  refine ⟨(waveformColumn data step i).1, (waveformColumn data step i).2, ?_, ?_, ?_, ?_⟩
  · simp [drawWaveform, List.getElem?_range hi, hstep]
  · obtain ⟨⟨a1, a2, a3⟩, _⟩ := waveformScan_fold data (i * step) (List.range step) (1.0, -1.0)
    refine ⟨a1, ?_, ?_⟩
    · intro k h1 h2 d hd
      exact a2 (k - i * step) (List.mem_range.mpr (by omega)) d
        (by rw [Nat.add_sub_cancel' h1]; exact hd)
    · rcases a3 with h | ⟨j, hj, h⟩
      · exact Or.inl h
      · exact Or.inr ⟨i * step + j, by omega, by have := List.mem_range.mp hj; omega, h⟩
  · obtain ⟨_, ⟨b1, b2, b3⟩⟩ := waveformScan_fold data (i * step) (List.range step) (1.0, -1.0)
    refine ⟨b1, ?_, ?_⟩
    · intro k h1 h2 d hd
      exact b2 (k - i * step) (List.mem_range.mpr (by omega)) d
        (by rw [Nat.add_sub_cancel' h1]; exact hd)
    · rcases b3 with h | ⟨j, hj, h⟩
      · exact Or.inl h
      · exact Or.inr ⟨i * step + j, by omega, by have := List.mem_range.mp hj; omega, h⟩
  · intro hall
    have : waveformColumn data step i = (1.0, -1.0) := by
      unfold waveformColumn
      apply waveformScan_fold_none
      intro j hj
      have := List.mem_range.mp hj
      exact List.getElem?_eq_none (hall (i * step + j) (by omega) (by omega))
    rw [← this]

/-- Witness for C8 at five samples and width 4: `step = 2` and four columns. -/
theorem drawWaveform_columns_witness :
    0 < 4 ∧ waveformStep [(0.5 : ℚ), -0.25, 0.75, 0.1, -0.9].length 4 = 2 ∧
    (drawWaveform [0.5, -0.25, 0.75, 0.1, -0.9] 4).length = 4 :=
  ⟨by decide, (drawWaveform_columns [0.5, -0.25, 0.75, 0.1, -0.9] 4 (by decide)).1,
   (drawWaveform_columns [0.5, -0.25, 0.75, 0.1, -0.9] 4 (by decide)).2.1⟩

end EchoStudio
